import Mathlib

/-!
Verification of the authorization-and-provenance core of a task-management
backend: role-based access control (permission resolution, access decisions,
manager-hierarchy traversal), the audit trail, and the soft-delete / trash
lifecycle.  All definitions are shallow embeddings of the Python source
(`app/services/rbac.py`, `app/services/trash.py`, `app/services/audit.py`,
`app/models/base.py`, and the `tasks` / `admin_rbac` endpoint handlers).

Machine integers, timestamps and database ids are modelled as `Nat`; SQL
tables are association lists; `scalar_one_or_none` is first-match lookup;
Python `None` is `Option.none`.  Python `while` loops carry an explicit fuel
argument; the fuel passed by each wrapper is proved sufficient below by a
potential-function argument, which is exactly the visited-set termination
guarantee of the source.
-/

namespace App

/-! ## Hierarchy store (the `users` table restricted to `id`, `manager_id`) -/

/-- The users table as seen by the hierarchy traversals: one row per user,
`(id, manager_id)`, where `manager_id = none` models SQL NULL. -/
abbrev Db := List (Nat × Option Nat)

/-- Models `select(...).where(User.id == uid)` + `scalar_one_or_none()`:
`none` when no row matches, otherwise the first matching row's
`manager_id` column. -/
def rowOf : Db → Nat → Option (Option Nat)
  | [], _ => none
  | (i, m) :: rest, uid => if i = uid then some m else rowOf rest uid

/-- Models `select(User.manager_id).where(User.id == uid)` +
`scalar_one_or_none()`: `none` both when the user row is absent and when its
`manager_id` is NULL (the two cases are indistinguishable to the caller,
exactly as in the source). -/
def managerOf (db : Db) (uid : Nat) : Option Nat :=
  (rowOf db uid).bind id

/-- Models `select(User.id).where(User.manager_id == mid)`: the ids of the
direct reports of `mid`, in table order. -/
def subsOf (db : Db) (mid : Nat) : List Nat :=
  (db.filter (fun p => p.2 == some mid)).map (fun p => p.1)

/-- Well-formedness of the users table: primary keys are unique and database
ids are positive (autoincrement keys start at 1; `0` would be falsy in the
source's `while current_id:` / `if manager_id:` tests). -/
def DbWF (db : Db) : Prop :=
  (db.map (fun p => p.1)).Nodup ∧ ∀ p ∈ db, p.1 ≠ 0

/-- Loop body of `is_in_hierarchy`: walk up the manager chain from `current`,
returning true on reaching a node whose manager is `target`.  The `visited`
set guards against cycles; `fuel` makes the recursion structural and is
proved sufficient below. -/
def hierAux (db : Db) (target : Nat) : Nat → List Nat → Option Nat → Bool
  | _, _, none => false
  | 0, _, some _ => false
  | fuel + 1, visited, some c =>
    if c = 0 then false
    else if c ∈ visited then false
    else
      match managerOf db c with
      | none => false
      | some m => if m = target then true else hierAux db target fuel (c :: visited) (some m)

/-- `is_in_hierarchy(db, manager_id, subordinate_id)`: true when
`subordinate_id` is anywhere below `manager_id` in the manager tree (or equal
to it).  Walks up the chain from the subordinate with a visited-set guard. -/
def is_in_hierarchy (db : Db) (manager_id subordinate_id : Nat) : Bool :=
  if manager_id = subordinate_id then true
  else hierAux db manager_id (db.length + 2) [] (some subordinate_id)

/-- Loop body of `get_all_subordinate_ids`: breadth-first traversal over the
"reports to me" edge.  `queue` is `to_process`, `ids` the accumulated result. -/
def bfsAux (db : Db) : Nat → List Nat → List Nat → List Nat → List Nat
  | 0, _, _, ids => ids
  | _ + 1, [], _, ids => ids
  | fuel + 1, c :: rest, visited, ids =>
    if c ∈ visited then bfsAux db fuel rest visited ids
    else bfsAux db fuel (rest ++ subsOf db c) (c :: visited) (ids ++ subsOf db c)

/-- `get_all_subordinate_ids(db, manager_id, include_self)`: every id in the
subtree rooted at `manager_id`, via breadth-first traversal with a visited
set. -/
def get_all_subordinate_ids (db : Db) (manager_id : Nat) (include_self : Bool := true) :
    List Nat :=
  bfsAux db (db.length + 1) [manager_id] [] (if include_self then [manager_id] else [])

/-- Loop body of `get_user_manager_chain`: walk up from `current`, collecting
each manager id that resolves to an existing row.  The source appends `User`
objects; we record their ids. -/
def chainAux (db : Db) : Nat → List Nat → Nat → List Nat
  | 0, _, _ => []
  | fuel + 1, visited, c =>
    if c = 0 then []
    else if c ∈ visited then []
    else
      match rowOf db c with
      | none => []
      | some mo =>
        match mo with
        | none => []
        | some m =>
          if m = 0 then []
          else
            match rowOf db m with
            | none => []
            | some _ => m :: chainAux db fuel (c :: visited) m

/-- `get_user_manager_chain(db, user_id)`: the ids of the managers of
`user_id`, from the direct manager up to the top, cycle-guarded. -/
def get_user_manager_chain (db : Db) (user_id : Nat) : List Nat :=
  chainAux db (db.length + 2) [] user_id

/-- `c` reaches `u` by following `manager_id` edges upward at least once:
the "descendant" relation of the spec (`u`'s strict descendants plus, when
cycles corrupt the data, whatever still chains up to `u`). -/
inductive ReachesUp (db : Db) : Nat → Nat → Prop
  | direct {c u : Nat} : managerOf db c = some u → ReachesUp db c u
  | step {c p u : Nat} : managerOf db c = some p → ReachesUp db p u → ReachesUp db c u

/-! ## Role registry and permission resolution (`rbac.py`) -/

/-- A role row: `(component, name)` plus the JSON permission map, modelled as
the list of its key/value pairs (`action → scope-or-NULL`). -/
structure Role where
  component : String
  name : String
  permissions : List (String × Option String)
deriving DecidableEq

/-- `SCOPE_PRIORITY.get(s, 0)` for a string key. -/
def prioStr (s : String) : Nat :=
  if s = "own" then 1 else if s = "subordinates" then 2 else if s = "all" then 3 else 0

/-- `SCOPE_PRIORITY.get(x, 0)` where `x` may be Python `None`. -/
def prio : Option String → Nat
  | none => 0
  | some s => prioStr s

/-- The full RBAC state: users table, roles keyed by id, and the
`user_roles` assignment pairs `(user_id, role_id)`. -/
structure RbacDb where
  users : Db
  roles : List (Nat × Role)
  user_roles : List (Nat × Nat)

/-- First-match lookup in the roles table (primary-key select). -/
def lookupRole : List (Nat × Role) → Nat → Option Role
  | [], _ => none
  | (i, r) :: rest, rid => if i = rid then some r else lookupRole rest rid

/-- `get_user_roles(db, user_id, component)`: the roles assigned to the user,
optionally filtered by component.  The filter is skipped when `component` is
`None` or empty (Python truthiness of `if component:`). -/
def get_user_roles (s : RbacDb) (user_id : Nat) (component : Option String) : List Role :=
  (s.user_roles.filter (fun a => a.1 == user_id)).filterMap (fun a =>
    (lookupRole s.roles a.2).bind (fun r =>
      match component with
      | none => some r
      | some comp => if comp = "" then some r else if r.component = comp then some r else none))

/-- One iteration of the union loop in `get_user_permissions`: given the
effective map so far and one `(action, scope)` item of a role's permission
map, keep the broadest scope (`if new_priority > current_priority`). -/
def updPerm (eff : String → Option String) (p : String × Option String) :
    String → Option String :=
  match p.2 with
  | none => eff
  | some s =>
    if prio (eff p.1) < prioStr s then fun a => if a = p.1 then some s else eff a else eff

/-- The union-by-maximum fold of `get_user_permissions` over an explicit list
of roles (the list returned by `get_user_roles`).  The effective map is a
function; actions never granted resolve to `none`, matching
`effective.get(action)`. -/
def resolveRoles (roles : List Role) : String → Option String :=
  (roles.flatMap (fun r => r.permissions)).foldl updPerm (fun _ => none)

/-- `get_user_permissions(db, user_id, component)`: effective action → scope
map for the user on the component, unioned across all assigned roles. -/
def get_user_permissions (s : RbacDb) (user_id : Nat) (component : String) :
    String → Option String :=
  resolveRoles (get_user_roles s user_id (some component))

/-- `check_permission(db, user_id, component, action, resource_owner_id)`:
the access decision point. -/
def check_permission (s : RbacDb) (user_id : Nat) (component action : String)
    (resource_owner_id : Option Nat) : Bool :=
  match get_user_permissions s user_id component action with
  | none => false
  | some scope =>
    if scope = "all" then true
    else if scope = "own" then
      if action = "create" then true else resource_owner_id == some user_id
    else if scope = "subordinates" then
      if action = "create" then true
      else
        match resource_owner_id with
        | none => false
        | some r => if r = user_id then true else is_in_hierarchy s.users user_id r
    else false

/-! ## Manager assignment (`admin_rbac.py`, `update_user_manager`) -/

/-- The error outcomes of `update_user_manager`: 404 user, 400 self-manager,
404 manager, 400 circular dependency. -/
inductive UmError
  | userNotFound
  | selfManager
  | managerNotFound
  | cycle
deriving DecidableEq

/-- Writing the manager edge: `user.manager_id = manager_id` followed by
commit. -/
def setManagerEdge (db : Db) (user_id : Nat) (m : Option Nat) : Db :=
  db.map (fun p => if p.1 = user_id then (p.1, m) else p)

/-- `update_user_manager(user_id, manager_id)`: validate (user exists, not
self, manager exists, no circular dependency via `get_all_subordinate_ids`)
then update the edge.  An error raises before any write, so the erroring
cases return no new state.  The inner `if manager_id:` truthiness test of the
source is kept as `m ≠ 0`. -/
def update_user_manager (db : Db) (user_id : Nat) (manager_id : Option Nat) :
    Except UmError Db :=
  match rowOf db user_id with
  | none => .error .userNotFound
  | some _ =>
    match manager_id with
    | none => .ok (setManagerEdge db user_id none)
    | some m =>
      if m = user_id then .error .selfManager
      else
        match rowOf db m with
        | none => .error .managerNotFound
        | some _ =>
          if m ≠ 0 then
            if m ∈ get_all_subordinate_ids db user_id then .error .cycle
            else .ok (setManagerEdge db user_id (some m))
          else .ok (setManagerEdge db user_id (some m))

/-! ## Records, audit trail and trash lifecycle
(`models/base.py`, `models/user.py`, `models/task.py`, `services/audit.py`,
`services/trash.py`) -/

/-- A scalar cell of an audit snapshot / trash payload dictionary. -/
inductive Val
  | s (v : String)
  | b (v : Bool)
  | n (v : Nat)
  | nullv
deriving DecidableEq

/-- A `users` row with the columns the lifecycle code touches.
`created_at` / `updated_at` come from `TimestampMixin` (with
`onupdate=datetime.utcnow`), `deleted_at` from `SoftDeleteMixin`. -/
structure UserRec where
  id : Nat
  email : String
  first_name : Option String
  last_name : Option String
  is_active : Bool
  is_admin : Bool
  created_at : Nat
  updated_at : Nat
  deleted_at : Option Nat
deriving DecidableEq

/-- A `tasks` row (status / priority are the enum `.value` strings). -/
structure TaskRec where
  id : Nat
  title : String
  description : Option String
  status : String
  priority : String
  user_id : Nat
  created_at : Nat
  updated_at : Nat
  deleted_at : Option Nat
deriving DecidableEq

/-- An `audit_logs` row, with the columns the modelled flows set.  Request
provenance columns are omitted (all nullable and never read back by this
core). -/
structure AuditEntry where
  action : String
  table_name : String
  record_id : Option String
  user_id : Option Nat
  user_email : Option String
  old_values : Option (List (String × Val))
  new_values : Option (List (String × Val))
  description : Option String
deriving DecidableEq

/-- The persisted state the lifecycle code operates on. -/
structure Store where
  users : List UserRec
  tasks : List TaskRec
  audit : List AuditEntry
deriving DecidableEq

/-- `create_audit_log(...)`: builds one `AuditLog` row, `db.add`s it and
commits.  Append-only. -/
def create_audit_log (st : Store) (e : AuditEntry) : Store :=
  { st with audit := st.audit ++ [e] }

/-- `SoftDeleteMixin.soft_delete`: set the tombstone timestamp. -/
def UserRec.soft_delete (u : UserRec) (now : Nat) : UserRec :=
  { u with deleted_at := some now }

/-- `SoftDeleteMixin.restore`: clear the tombstone timestamp. -/
def UserRec.restore (u : UserRec) : UserRec :=
  { u with deleted_at := none }

/-- `SoftDeleteMixin.soft_delete` for tasks. -/
def TaskRec.soft_delete (t : TaskRec) (now : Nat) : TaskRec :=
  { t with deleted_at := some now }

/-- `SoftDeleteMixin.restore` for tasks. -/
def TaskRec.restore (t : TaskRec) : TaskRec :=
  { t with deleted_at := none }

/-- Committing an UPDATE on a user row fires `TimestampMixin`'s
`onupdate=datetime.utcnow`, advancing `updated_at` to the commit time. -/
def commitUser (u : UserRec) (now : Nat) : UserRec :=
  { u with updated_at := now }

/-- Committing an UPDATE on a task row (same `onupdate` hook). -/
def commitTask (t : TaskRec) (now : Nat) : TaskRec :=
  { t with updated_at := now }

/-- Render an optional string column into a snapshot cell. -/
def optVal : Option String → Val
  | none => .nullv
  | some s => .s s

/-! ## Trash service (`services/trash.py`) -/

/-- The `TrashItem` view object. -/
structure TrashItem where
  id : Nat
  type : String
  name : String
  deleted_at : Nat
  deleted_by : Option String
  data : List (String × Val)
deriving DecidableEq

/-- Insert `x` into a list already sorted by strictly descending-or-equal
`key`, after every element of equal key (the element being inserted arrived
later). -/
def insertDescBy {α : Type} (key : α → Nat) (x : α) : List α → List α
  | [] => [x]
  | y :: ys => if key y < key x then x :: y :: ys else y :: insertDescBy key x ys

/-- Stable descending sort by `key`: models both SQL
`ORDER BY deleted_at DESC` and Python's stable
`items.sort(key=..., reverse=True)` (equal keys keep their original order). -/
def sortDescBy {α : Type} (key : α → Nat) (l : List α) : List α :=
  l.foldl (fun acc x => insertDescBy key x acc) []

/-- The `TrashItem` built from a tombstoned user row. -/
def userTrashItem (u : UserRec) : TrashItem :=
  { id := u.id, type := "user", name := u.email, deleted_at := u.deleted_at.getD 0,
    deleted_by := none,
    data := [("email", .s u.email), ("first_name", optVal u.first_name),
             ("last_name", optVal u.last_name), ("is_admin", .b u.is_admin),
             ("is_active", .b u.is_active)] }

/-- The `TrashItem` built from a tombstoned task row. -/
def taskTrashItem (t : TaskRec) : TrashItem :=
  { id := t.id, type := "task", name := t.title, deleted_at := t.deleted_at.getD 0,
    deleted_by := none,
    data := [("title", .s t.title), ("status", .s t.status),
             ("priority", .s t.priority), ("user_id", .n t.user_id)] }

/-- `get_trash_items(db, item_type, skip, limit)`: per-type queries (each with
its own offset/limit arithmetic), merged, re-sorted by tombstone timestamp
descending, then sliced `items[skip : skip + limit]`. -/
def get_trash_items (st : Store) (item_type : Option String) (skip : Nat := 0)
    (limit : Nat := 100) : List TrashItem :=
  let userItems : List TrashItem :=
    if item_type = none ∨ item_type = some "user" then
      ((((sortDescBy (fun u => u.deleted_at.getD 0)
            (st.users.filter (fun u => u.deleted_at.isSome))).drop
          (if item_type = some "user" then skip else 0)).take
        (if item_type = some "user" then limit else limit / 2)).map userTrashItem)
    else []
  let taskItems : List TrashItem :=
    if item_type = none ∨ item_type = some "task" then
      ((((sortDescBy (fun t => t.deleted_at.getD 0)
            (st.tasks.filter (fun t => t.deleted_at.isSome))).drop
          (if item_type = some "task" then skip else 0)).take
        (if item_type = some "task" then limit else limit / 2)).map taskTrashItem)
    else []
  (((sortDescBy (fun i => i.deleted_at) (userItems ++ taskItems)).drop skip).take limit)

/-- `restore_item(db, item_type, item_id, user_id, user_email, request)`:
clear the tombstone of the matching record, commit (firing the `updated_at`
hook), then append one audit row.  Returns whether a record was restored.
With unique primary keys the row-map touches exactly the fetched row. -/
def restore_item (st : Store) (item_type : String) (item_id : Nat) (user_id : Nat)
    (user_email : String) (now : Nat) : Bool × Store :=
  if item_type = "user" then
    match st.users.find? (fun u => u.id == item_id && u.deleted_at.isSome) with
    | none => (false, st)
    | some u =>
      let st1 : Store :=
        { st with users := st.users.map (fun v =>
            if v.id = item_id ∧ v.deleted_at.isSome then commitUser v.restore now else v) }
      (true, create_audit_log st1
        { action := "update", table_name := "users", record_id := some (toString u.id),
          user_id := some user_id, user_email := some user_email,
          old_values := none, new_values := none,
          description := some ("Restored user from trash: " ++ u.email) })
  else if item_type = "task" then
    match st.tasks.find? (fun t => t.id == item_id && t.deleted_at.isSome) with
    | none => (false, st)
    | some t =>
      let st1 : Store :=
        { st with tasks := st.tasks.map (fun v =>
            if v.id = item_id ∧ v.deleted_at.isSome then commitTask v.restore now else v) }
      (true, create_audit_log st1
        { action := "update", table_name := "tasks", record_id := some (toString t.id),
          user_id := some user_id, user_email := some user_email,
          old_values := none, new_values := none,
          description := some ("Restored task from trash: " ++ t.title) })
  else (false, st)

/-- `permanently_delete(db, item_type, item_id, user_id, user_email, request)`:
remove the matching tombstoned record from storage, then append one audit
row.  Returns whether a record was removed. -/
def permanently_delete (st : Store) (item_type : String) (item_id : Nat) (user_id : Nat)
    (user_email : String) : Bool × Store :=
  if item_type = "user" then
    match st.users.find? (fun u => u.id == item_id && u.deleted_at.isSome) with
    | none => (false, st)
    | some u =>
      let st1 : Store :=
        { st with users := st.users.filter (fun v =>
            ¬(v.id = item_id ∧ v.deleted_at.isSome)) }
      (true, create_audit_log st1
        { action := "delete", table_name := "users", record_id := some (toString item_id),
          user_id := some user_id, user_email := some user_email,
          old_values := none, new_values := none,
          description := some ("Permanently deleted user from trash: " ++ u.email) })
  else if item_type = "task" then
    match st.tasks.find? (fun t => t.id == item_id && t.deleted_at.isSome) with
    | none => (false, st)
    | some t =>
      let st1 : Store :=
        { st with tasks := st.tasks.filter (fun v =>
            ¬(v.id = item_id ∧ v.deleted_at.isSome)) }
      (true, create_audit_log st1
        { action := "delete", table_name := "tasks", record_id := some (toString item_id),
          user_id := some user_id, user_email := some user_email,
          old_values := none, new_values := none,
          description := some ("Permanently deleted task from trash: " ++ t.title) })
  else (false, st)

/-- `empty_trash(db, user_id, user_email, request)`: count and delete every
tombstoned user and task, commit, then append exactly one summary audit row
with the aggregate counts.  Returns the per-type counts. -/
def empty_trash (st : Store) (user_id : Nat) (user_email : String) :
    Store × (Nat × Nat) :=
  let user_count := (st.users.filter (fun u => u.deleted_at.isSome)).length
  let task_count := (st.tasks.filter (fun t => t.deleted_at.isSome)).length
  let st1 : Store :=
    { users := st.users.filter (fun u => u.deleted_at.isNone),
      tasks := st.tasks.filter (fun t => t.deleted_at.isNone),
      audit := st.audit }
  (create_audit_log st1
    { action := "delete", table_name := "trash", record_id := none,
      user_id := some user_id, user_email := some user_email,
      old_values := none, new_values := none,
      description := some ("Emptied trash: " ++ toString user_count ++ " users, "
        ++ toString task_count ++ " tasks permanently deleted") },
   (user_count, task_count))

/-! ## Deletion endpoints and their operation order
(`endpoints/tasks.py::delete_task`, `endpoints/admin_rbac.py::delete_user`) -/

/-- The observable steps of a deletion flow, in execution order:
an audit row committing (with or without a before-state snapshot), the
tombstone timestamp being assigned, and the data mutation committing. -/
inductive DelEvent
  | auditCommit (has_before : Bool)
  | tombstoneSet
  | dataCommit
deriving DecidableEq

/-- `DELETE /tasks/{task_id}`: fetch the caller's live task, append the audit
row with the pre-deletion snapshot (committed inside `create_audit_log`),
then soft-delete and commit.  Returns the new state (404 as `.error`) paired
with the event trace. -/
def delete_task (st : Store) (task_id current_uid : Nat) (current_email : Option String)
    (now : Nat) : Except Unit Store × List DelEvent :=
  match st.tasks.find? (fun t =>
      t.id == task_id && t.user_id == current_uid && t.deleted_at.isNone) with
  | none => (.error (), [])
  | some t =>
    let st1 := create_audit_log st
      { action := "delete", table_name := "tasks", record_id := some (toString t.id),
        user_id := some current_uid, user_email := current_email,
        old_values := some [("title", .s t.title), ("description", optVal t.description),
                            ("status", .s t.status), ("priority", .s t.priority)],
        new_values := none, description := some ("Deleted task: " ++ t.title) }
    let st2 : Store :=
      { st1 with tasks := st1.tasks.map (fun v =>
          if v.id = task_id ∧ v.user_id = current_uid ∧ v.deleted_at.isNone
          then commitTask (v.soft_delete now) now else v) }
    (.ok st2, [.auditCommit true, .tombstoneSet, .dataCommit])

/-- `DELETE /users/{user_id}` (admin): reject self-deletion, fetch the live
user, set the tombstone and commit, and only then append an audit row that
carries no before-state snapshot. -/
def delete_user (st : Store) (user_id cur_id : Nat) (cur_email : String) (now : Nat) :
    Except Unit Store × List DelEvent :=
  if user_id = cur_id then (.error (), [])
  else
    match st.users.find? (fun u => u.id == user_id && u.deleted_at.isNone) with
    | none => (.error (), [])
    | some u =>
      let st1 : Store :=
        { st with users := st.users.map (fun v =>
            if v.id = user_id ∧ v.deleted_at.isNone
            then commitUser { v with deleted_at := some now } now else v) }
      let st2 := create_audit_log st1
        { action := "delete", table_name := "users", record_id := some (toString user_id),
          user_id := some cur_id, user_email := some cur_email,
          old_values := none, new_values := none,
          description := some ("Deleted user: " ++ u.email) }
      (.ok st2, [.tombstoneSet, .dataCommit, .auditCommit false])

/-- Does an audit commit carrying a before-state snapshot happen strictly
before the tombstone is set?  Vacuously true for traces that set no
tombstone. -/
def auditedBeforeTombstone (tr : List DelEvent) : Bool :=
  !(tr.contains .tombstoneSet) ||
    (tr.takeWhile (fun e => e != .tombstoneSet)).contains (.auditCommit true)

/-- Store-level `softDelete(record)` for a user: the `SoftDeleteMixin`
tombstone assignment on the matching live row followed by a commit (which
fires the `updated_at` hook). -/
def softDeleteUserRow (st : Store) (uid : Nat) (now : Nat) : Store :=
  { st with users := st.users.map (fun v =>
      if v.id = uid ∧ v.deleted_at.isNone then commitUser (v.soft_delete now) now else v) }

/-- Store-level `softDelete(record)` for a task. -/
def softDeleteTaskRow (st : Store) (tid : Nat) (now : Nat) : Store :=
  { st with tasks := st.tasks.map (fun v =>
      if v.id = tid ∧ v.deleted_at.isNone then commitTask (v.soft_delete now) now else v) }

/-- Modelled from the spec (section 4.6, the `list` contract): the trash page
obtained by merging the tombstoned records of all governed types first,
sorting the merged list by tombstone timestamp descending, and paginating
only after merging.  Used as the reference point the code is compared
against. -/
def specMergedTrashPage (st : Store) (item_type : Option String) (skip limit : Nat) :
    List TrashItem :=
  let allItems :=
    (st.users.filter (fun u => u.deleted_at.isSome)).map userTrashItem
      ++ (st.tasks.filter (fun t => t.deleted_at.isSome)).map taskTrashItem
  let filtered :=
    match item_type with
    | none => allItems
    | some ty => allItems.filter (fun i => i.type == ty)
  ((sortDescBy (fun i => i.deleted_at) filtered).drop skip).take limit

/-- The multiset of scope values the user's roles on the component mention
for `action` (including NULL and malformed entries, exactly the values the
union loop of `get_user_permissions` iterates over). -/
def grantedScopes (s : RbacDb) (user_id : Nat) (component : String) (action : String) :
    List (Option String) :=
  ((get_user_roles s user_id (some component)).flatMap (fun r => r.permissions)).filterMap
    (fun p => if p.1 = action then some p.2 else none)

/-- Potential of the upward walks: one fuel unit per not-yet-visited user id,
plus one.  Each loop iteration strictly decreases it. -/
def potH (db : Db) (visited : List Nat) : Nat :=
  ((db.map (fun p => p.1)).toFinset \ visited.toFinset).card + 1

/-- Potential of the breadth-first downward walk over a candidate-id set `C`:
the queue length plus the total fan-out still creditable to unvisited
candidates.  Each loop iteration strictly decreases it. -/
def potB (db : Db) (C : Finset Nat) (queue visited : List Nat) : Nat :=
  queue.length + ∑ c ∈ C \ visited.toFinset, (subsOf db c).length

/-- The list of primary keys of the users table. -/
def dbKeys (db : Db) : List Nat := db.map (fun p => p.1)

/-- One step up the manager chain, as a partial map on `Option Nat`. -/
def mstep (db : Db) (o : Option Nat) : Option Nat := o.bind (managerOf db)

/-- The `k`-th node of the (deterministic) upward manager chain starting at
`c`; `none` once the chain has fallen off the table. -/
def mchain (db : Db) (c : Nat) (k : Nat) : Option Nat := (mstep db)^[k] (some c)

/-! ## Concrete sample data for witnesses and counterexamples -/

/-- A four-user hierarchy: 1 manages 2, 2 manages 3; 4 is unrelated. -/
def hierDb : Db := [(1, none), (2, some 1), (3, some 2), (4, none)]

/-- A corrupted users table containing a manager cycle 1 → 2 → 1. -/
def cycleDb : Db := [(1, some 2), (2, some 1)]

/-- A role granting `read` on tasks at `subordinates` scope. -/
def roleReadSub : Role :=
  { component := "tasks", name := "Manager",
    permissions := [("create", some "own"), ("read", some "subordinates"),
                    ("update", none), ("delete", none)] }

/-- A role granting `read` on tasks at `own` scope. -/
def roleReadOwn : Role :=
  { component := "tasks", name := "User",
    permissions := [("create", some "own"), ("read", some "own"),
                    ("update", some "own"), ("delete", none)] }

/-- An RBAC state: user 1 holds `roleReadSub` over `hierDb`. -/
def rbacS : RbacDb :=
  { users := hierDb, roles := [(10, roleReadSub)], user_roles := [(1, 10)] }

/-- The same state with an extra role and both assignment orders exercised
in the C4 witness. -/
def rbacS2 : RbacDb :=
  { users := hierDb, roles := [(10, roleReadSub), (11, roleReadOwn)],
    user_roles := [(1, 10), (1, 11)] }

/-- A task row tombstoned at time `dts`. -/
def sampleTask (i dts : Nat) : TaskRec :=
  { id := i, title := "task", description := none, status := "todo",
    priority := "medium", user_id := 1, created_at := 0, updated_at := 0,
    deleted_at := some dts }

/-- A store with three tombstoned tasks (timestamps 3, 2, 1) and no
tombstoned users: the C5 failing input. -/
def trashStore3 : Store :=
  { users := [], tasks := [sampleTask 1 3, sampleTask 2 2, sampleTask 3 1], audit := [] }

/-- A live user row with all-zero timestamps: the C6 failing input. -/
def sampleUser : UserRec :=
  { id := 1, email := "a@example.com", first_name := none, last_name := none,
    is_active := true, is_admin := false, created_at := 0, updated_at := 0,
    deleted_at := none }

/-- A store holding only `sampleUser`, live. -/
def liveUserStore : Store := { users := [sampleUser], tasks := [], audit := [] }

/-- A store with a single live task (id 7, owned by user 1). -/
def liveTaskStore : Store :=
  { users := [],
    tasks := [{ id := 7, title := "write spec", description := none, status := "todo",
                priority := "low", user_id := 1, created_at := 0, updated_at := 0,
                deleted_at := none }],
    audit := [] }

/-- A store with one live admin (id 1) and one live ordinary user (id 2):
the C7 failing input for the user-deletion path. -/
def twoUserStore : Store :=
  { users := [sampleUser,
              { id := 2, email := "b@example.com", first_name := none, last_name := none,
                is_active := true, is_admin := false, created_at := 0, updated_at := 0,
                deleted_at := none }],
    tasks := [], audit := [] }

/-! ## Lemmas: permission resolution -/

theorem prioStr_pos_cases {s : String} (h : 1 ≤ prioStr s) :
    s = "own" ∨ s = "subordinates" ∨ s = "all" := by
  unfold prioStr at h
  split_ifs at h with h1 h2 h3
  · exact Or.inl h1
  · exact Or.inr (Or.inl h2)
  · exact Or.inr (Or.inr h3)
  · omega

theorem prioStr_inj {s t : String} (h : prioStr s = prioStr t) (hp : 1 ≤ prioStr s) :
    s = t := by
  unfold prioStr at h hp
  split_ifs at h hp <;> simp_all

theorem updPerm_apply_none (e : String → Option String) (k a : String) :
    updPerm e (k, none) a = e a := rfl

theorem updPerm_apply_some (e : String → Option String) (k s a : String) :
    updPerm e (k, some s) a
      = if a = k ∧ prio (e a) < prioStr s then some s else e a := by
  simp only [updPerm]
  by_cases h1 : a = k <;> by_cases h2 : prio (e k) < prioStr s <;>
    simp [h1, h2]

theorem prio_le_updPerm (e : String → Option String) (p : String × Option String)
    (a : String) : prio (e a) ≤ prio (updPerm e p a) := by
  rcases p with ⟨k, s⟩
  cases s with
  | none => exact le_refl _
  | some s =>
    rw [updPerm_apply_some]
    by_cases h : a = k ∧ prio (e a) < prioStr s
    · rw [if_pos h]
      exact Nat.le_of_lt h.2
    · rw [if_neg h]

theorem updPerm_self_le (e : String → Option String) (k : String) (s : Option String)
    (a : String) (hk : k = a) : prio s ≤ prio (updPerm e (k, s) a) := by
  cases s with
  | none => exact Nat.zero_le _
  | some s =>
    rw [updPerm_apply_some]
    by_cases h : a = k ∧ prio (e a) < prioStr s
    · rw [if_pos h]
    · rw [if_neg h]
      have hnlt : ¬ prio (e a) < prioStr s := fun hlt => h ⟨hk.symm, hlt⟩
      show prioStr s ≤ prio (e a)
      omega

theorem foldl_updPerm_char (l : List (String × Option String)) :
    ∀ (e : String → Option String) (a : String),
      prio (e a) ≤ prio (l.foldl updPerm e a)
      ∧ (∀ p ∈ l, p.1 = a → prio p.2 ≤ prio (l.foldl updPerm e a))
      ∧ (l.foldl updPerm e a = e a
          ∨ ∃ p ∈ l, p.1 = a ∧ l.foldl updPerm e a = p.2 ∧ 1 ≤ prio p.2) := by
  induction l with
  | nil =>
    intro e a
    refine ⟨le_refl _, ?_, Or.inl rfl⟩
    intro p hp
    cases hp
  | cons p l ih =>
    intro e a
    have hstep : List.foldl updPerm e (p :: l) = List.foldl updPerm (updPerm e p) l := rfl
    obtain ⟨ih1, ih2, ih3⟩ := ih (updPerm e p) a
    rw [hstep]
    refine ⟨le_trans (prio_le_updPerm e p a) ih1, ?_, ?_⟩
    · intro q hq hqa
      rcases List.mem_cons.mp hq with rfl | hq
      · exact le_trans (updPerm_self_le e q.1 q.2 a hqa) ih1
      · exact ih2 q hq hqa
    · rcases ih3 with h | ⟨q, hq, hqa, hqv, hqp⟩
      · rcases p with ⟨k, s⟩
        cases s with
        | none =>
          rw [h, updPerm_apply_none]
          exact Or.inl rfl
        | some s =>
          rw [h, updPerm_apply_some]
          by_cases hc : a = k ∧ prio (e a) < prioStr s
          · refine Or.inr ⟨(k, some s), List.mem_cons_self _ _, hc.1.symm, ?_, ?_⟩
            · rw [if_pos hc]
            · have := hc.2
              simp only [prio]
              omega
          · exact Or.inl (by rw [if_neg hc])
      · exact Or.inr ⟨q, List.mem_cons_of_mem _ hq, hqa, hqv, hqp⟩

theorem resolveRoles_some_valid {roles : List Role} {a sc : String}
    (h : resolveRoles roles a = some sc) :
    sc = "own" ∨ sc = "subordinates" ∨ sc = "all" := by
  obtain ⟨-, -, h3⟩ := foldl_updPerm_char (roles.flatMap (fun r => r.permissions))
    (fun _ => none) a
  unfold resolveRoles at h
  rcases h3 with h3 | ⟨q, _, _, hqv, hqp⟩
  · rw [h] at h3
    cases h3
  · rw [h] at hqv
    rw [← hqv] at hqp
    exact prioStr_pos_cases hqp

theorem updPerm_rcomm (e : String → Option String) (p q : String × Option String) :
    updPerm (updPerm e p) q = updPerm (updPerm e q) p := by
  rcases p with ⟨pk, ps⟩
  rcases q with ⟨qk, qs⟩
  cases ps with
  | none => rfl
  | some s =>
    cases qs with
    | none => rfl
    | some t =>
      funext a
      simp only [updPerm_apply_some]
      by_cases h1 : a = pk
      · subst h1
        by_cases h2 : a = qk
        · subst h2
          simp only [eq_self_iff_true, true_and]
          by_cases hA : prio (e a) < prioStr s
          · by_cases hB : prio (e a) < prioStr t
            · rw [if_pos hA, if_pos hB]
              simp only [prio]
              rcases Nat.lt_trichotomy (prioStr s) (prioStr t) with hlt | heq | hgt
              · rw [if_pos hlt, if_neg (by omega)]
              · have hst : s = t := prioStr_inj heq (by omega)
                subst hst
                simp
              · rw [if_neg (by omega), if_pos hgt]
            · rw [if_neg hB, if_pos hA]
              simp only [prio]
              rw [if_neg (by omega)]
          · by_cases hB : prio (e a) < prioStr t
            · rw [if_neg hA, if_pos hB]
              simp only [prio]
              rw [if_neg (by omega)]
            · rw [if_neg hA, if_neg hB, if_neg hA]
        · simp [h2]
      · by_cases h2 : a = qk
        · subst h2
          simp [h1]
        · simp [h1, h2]

theorem foldl_updPerm_perm {l₁ l₂ : List (String × Option String)} (h : l₁.Perm l₂)
    (e : String → Option String) : l₁.foldl updPerm e = l₂.foldl updPerm e :=
  h.foldl_eq' (fun x _ y _ z => by rw [updPerm_rcomm]) e

/-- Claim C3: `allow(id, comp, "create", null)` is true exactly when the
resolved permission map assigns the `create` action a scope other than
`none`; every non-`none` scope (`own`, `subordinates`, `all`) permits
creation. -/
theorem c3_create_with_null_owner (s : RbacDb) (uid : Nat) (comp : String) :
    check_permission s uid comp "create" none = true
      ↔ get_user_permissions s uid comp "create" ≠ none := by
  unfold check_permission
  cases h : get_user_permissions s uid comp "create" with
  | none => simp
  | some sc =>
    unfold get_user_permissions at h
    have hv := resolveRoles_some_valid h
    rcases hv with rfl | rfl | rfl <;> simp

/-- Claim C4: permission resolution is order-independent (permuting the
role-assignment list never changes the resolved map), idempotent (resolving
twice with unchanged assignments gives identical output), and its result is
per-action maximal: the resolved scope's priority dominates every granted
scope for that action, and the resolved value is itself one of the granted
scopes (or `none`). -/
theorem c4_resolution_order_independent :
    (∀ (s : RbacDb) (ur : List (Nat × Nat)) (uid : Nat) (comp : String),
        s.user_roles.Perm ur →
          get_user_permissions { s with user_roles := ur } uid comp
            = get_user_permissions s uid comp)
    ∧ (∀ (s : RbacDb) (uid : Nat) (comp : String),
        get_user_permissions s uid comp = get_user_permissions s uid comp)
    ∧ (∀ (s : RbacDb) (uid : Nat) (comp a : String),
        (∀ g ∈ grantedScopes s uid comp a,
            prio g ≤ prio (get_user_permissions s uid comp a))
        ∧ (get_user_permissions s uid comp a = none
            ∨ get_user_permissions s uid comp a ∈ grantedScopes s uid comp a)) := by
  refine ⟨?_, fun _ _ _ => rfl, ?_⟩
  · intro s ur uid comp h
    unfold get_user_permissions resolveRoles
    refine foldl_updPerm_perm ?_ _
    refine List.Perm.flatMap_right _ ?_
    unfold get_user_roles
    exact (h.symm.filter _).filterMap _
  · intro s uid comp a
    obtain ⟨c1, c2, c3⟩ := foldl_updPerm_char
      ((get_user_roles s uid (some comp)).flatMap (fun r => r.permissions))
      (fun _ => none) a
    constructor
    · intro g hg
      rw [grantedScopes, List.mem_filterMap] at hg
      obtain ⟨p, hp, hpe⟩ := hg
      by_cases hpa : p.1 = a
      · rw [if_pos hpa] at hpe
        obtain rfl := Option.some.inj hpe
        exact c2 p hp hpa
      · rw [if_neg hpa] at hpe
        cases hpe
    · rcases c3 with h | ⟨p, hp, hpa, hpe, -⟩
      · exact Or.inl h
      · refine Or.inr ?_
        rw [grantedScopes, List.mem_filterMap]
        refine ⟨p, hp, ?_⟩
        rw [if_pos hpa, ← hpe]
        rfl

/-- Witness for C4 at a concrete state: swapping the two role assignments of
user 1 leaves the resolved map on `tasks` unchanged. -/
theorem c4_witness :
    rbacS2.user_roles.Perm [(1, 11), (1, 10)]
    ∧ get_user_permissions { rbacS2 with user_roles := [(1, 11), (1, 10)] } 1 "tasks"
        = get_user_permissions rbacS2 1 "tasks" :=
  ⟨List.Perm.swap (1, 11) (1, 10) [],
   c4_resolution_order_independent.1 rbacS2 [(1, 11), (1, 10)] 1 "tasks"
     (List.Perm.swap (1, 11) (1, 10) [])⟩

/-! ## Lemmas: upward hierarchy traversal -/

theorem rowOf_mem_keys {db : Db} {c : Nat} {m : Option Nat} (h : rowOf db c = some m) :
    c ∈ dbKeys db := by
  induction db with
  | nil => cases h
  | cons p rest ih =>
    unfold rowOf at h
    by_cases hc : p.1 = c
    · exact hc ▸ List.mem_cons_self _ _
    · rw [if_neg hc] at h
      exact List.mem_cons_of_mem _ (ih h)

theorem managerOf_mem_keys {db : Db} {c m : Nat} (h : managerOf db c = some m) :
    c ∈ dbKeys db := by
  unfold managerOf at h
  cases hr : rowOf db c with
  | none => rw [hr] at h; cases h
  | some v => exact rowOf_mem_keys hr

theorem keys_ne_zero {db : Db} (hwf : DbWF db) {c : Nat} (h : c ∈ dbKeys db) : c ≠ 0 := by
  obtain ⟨p, hp, hpc⟩ := List.mem_map.mp h
  exact hpc ▸ hwf.2 p hp

theorem mstep_iterate_none (db : Db) (j : Nat) : (mstep db)^[j] none = none := by
  induction j with
  | zero => rfl
  | succ j ih => rw [Function.iterate_succ_apply, show mstep db none = none from rfl, ih]

theorem mchain_zero (db : Db) (c : Nat) : mchain db c 0 = some c := rfl

theorem mchain_succ (db : Db) (c i : Nat) :
    mchain db c (i + 1) = mstep db (mchain db c i) := by
  unfold mchain
  exact Function.iterate_succ_apply' _ _ _

theorem mchain_add (db : Db) (c i j : Nat) :
    mchain db c (j + i) = (mstep db)^[j] (mchain db c i) := by
  unfold mchain
  exact Function.iterate_add_apply _ _ _ _

theorem mchain_shift {db : Db} {c p : Nat} (h : managerOf db c = some p) (k : Nat) :
    mchain db c (k + 1) = mchain db p k := by
  unfold mchain
  rw [Function.iterate_succ_apply]
  have : mstep db (some c) = some p := by simp [mstep, h]
  rw [this]

theorem mchain_isSome_of_le {db : Db} {c u : Nat} {k : Nat}
    (h : mchain db c k = some u) {i : Nat} (hik : i ≤ k) :
    ∃ v, mchain db c i = some v := by
  cases hv : mchain db c i with
  | some v => exact ⟨v, rfl⟩
  | none =>
    exfalso
    have : mchain db c k = none := by
      have hk : k = (k - i) + i := by omega
      rw [hk, mchain_add, hv, mstep_iterate_none]
    rw [this] at h
    cases h

theorem mchain_mem_keys {db : Db} {c u : Nat} {k : Nat}
    (h : mchain db c (k + 1) = some u) {i : Nat} (hik : i ≤ k) {x : Nat}
    (hx : mchain db c i = some x) : x ∈ dbKeys db := by
  obtain ⟨y, hy⟩ := mchain_isSome_of_le h (show i + 1 ≤ k + 1 by omega)
  rw [mchain_succ, hx] at hy
  have : managerOf db x = some y := hy
  exact managerOf_mem_keys this

theorem hierAux_sound (db : Db) (u : Nat) :
    ∀ (fuel : Nat) (visited : List Nat) (c : Nat),
      hierAux db u fuel visited (some c) = true → ReachesUp db c u := by
  intro fuel
  induction fuel with
  | zero => intro visited c h; cases h
  | succ fuel ih =>
    intro visited c h
    unfold hierAux at h
    by_cases hc : c = 0
    · rw [if_pos hc] at h; cases h
    · rw [if_neg hc] at h
      by_cases hv : c ∈ visited
      · rw [if_pos hv] at h; cases h
      · rw [if_neg hv] at h
        cases hm : managerOf db c with
        | none => rw [hm] at h; cases h
        | some m =>
          simp only [hm] at h
          by_cases hmu : m = u
          · exact ReachesUp.direct (hmu ▸ hm)
          · rw [if_neg hmu] at h
            exact ReachesUp.step hm (ih _ _ h)

theorem reachesUp_mchain {db : Db} {c u : Nat} (h : ReachesUp db c u) :
    ∃ k, mchain db c (k + 1) = some u := by
  induction h with
  | direct hm =>
    refine ⟨0, ?_⟩
    rw [mchain_succ, mchain_zero]
    simpa [mstep] using hm
  | step hm _ ih =>
    obtain ⟨k, hk⟩ := ih
    exact ⟨k + 1, by rw [mchain_shift hm (k + 1)]; exact hk⟩

theorem hierAux_complete (db : Db) (u : Nat) :
    ∀ (k : Nat) (c : Nat) (visited : List Nat) (fuel : Nat),
      mchain db c (k + 1) = some u →
      (∀ i, i ≤ k → ∀ x, mchain db c i = some x → x ≠ 0 ∧ x ∉ visited) →
      (∀ i j, i < j → j ≤ k → mchain db c i ≠ mchain db c j) →
      k + 1 ≤ fuel →
      hierAux db u fuel visited (some c) = true := by
  intro k
  induction k with
  | zero =>
    intro c visited fuel hchain hnode _ hfuel
    obtain ⟨fuel, rfl⟩ : ∃ f, fuel = f + 1 := ⟨fuel - 1, by omega⟩
    have hm : managerOf db c = some u := by
      rw [mchain_succ, mchain_zero] at hchain
      simpa [mstep] using hchain
    obtain ⟨hc0, hcv⟩ := hnode 0 (le_refl _) c (mchain_zero db c)
    unfold hierAux
    rw [if_neg hc0, if_neg hcv]
    simp [hm]
  | succ k ih =>
    intro c visited fuel hchain hnode hdist hfuel
    obtain ⟨fuel, rfl⟩ : ∃ f, fuel = f + 1 := ⟨fuel - 1, by omega⟩
    obtain ⟨p, hp⟩ := mchain_isSome_of_le hchain (show 1 ≤ k + 2 by omega)
    have hm : managerOf db c = some p := by
      rw [mchain_succ, mchain_zero] at hp
      simpa [mstep] using hp
    obtain ⟨hc0, hcv⟩ := hnode 0 (by omega) c (mchain_zero db c)
    unfold hierAux
    rw [if_neg hc0, if_neg hcv]
    simp only [hm]
    by_cases hpu : p = u
    · rw [if_pos hpu]
    · rw [if_neg hpu]
      refine ih p (c :: visited) fuel ?_ ?_ ?_ (by omega)
      · rw [← mchain_shift hm (k + 1)]
        exact hchain
      · intro i hik x hx
        have hx' : mchain db c (i + 1) = some x := by rw [mchain_shift hm i]; exact hx
        obtain ⟨hx0, hxv⟩ := hnode (i + 1) (by omega) x hx'
        refine ⟨hx0, ?_⟩
        intro hmem
        rcases List.mem_cons.mp hmem with rfl | hmem
        · exact hdist 0 (i + 1) (by omega) (by omega) (by rw [mchain_zero, hx'])
        · exact hxv hmem
      · intro i j hij hjk heq
        refine hdist (i + 1) (j + 1) (by omega) (by omega) ?_
        rw [mchain_shift hm i, mchain_shift hm j]
        exact heq

theorem minimal_mchain_distinct {db : Db} {c u : Nat}
    (h : ∃ k, mchain db c (k + 1) = some u) :
    ∀ i j, i < j → j ≤ Nat.find h → mchain db c i ≠ mchain db c j := by
  intro i j hij hjk heq
  have hper : ∀ t, mchain db c (t + i) = mchain db c (t + j) := by
    intro t
    rw [mchain_add, mchain_add, heq]
  have hidx : (Nat.find h + 1 - j) + j = Nat.find h + 1 := by omega
  have hsmall : mchain db c ((Nat.find h + 1 - j) + i) = some u := by
    rw [hper, hidx]
    exact Nat.find_spec h
  have hlt : (Nat.find h + 1 - j) + i - 1 < Nat.find h := by omega
  have : mchain db c (((Nat.find h + 1 - j) + i - 1) + 1) = some u := by
    have : ((Nat.find h + 1 - j) + i - 1) + 1 = (Nat.find h + 1 - j) + i := by omega
    rw [this]
    exact hsmall
  exact Nat.find_min h hlt this

theorem minimal_mchain_le {db : Db} {c u : Nat}
    (h : ∃ k, mchain db c (k + 1) = some u) : Nat.find h + 1 ≤ db.length + 1 := by
  set k := Nat.find h with hk
  have hspec : mchain db c (k + 1) = some u := Nat.find_spec h
  have hdist := minimal_mchain_distinct h
  -- the first k+1 chain nodes are pairwise distinct members of the key list
  set L : List (Option Nat) := (List.range (k + 1)).map (fun i => mchain db c i) with hL
  have hnd : L.Nodup := by
    refine List.Nodup.map_on ?_ (List.nodup_range _)
    intro i hi j hj hijeq
    by_contra hne
    rcases Nat.lt_or_ge i j with hlt | hge
    · exact hdist i j hlt (by
        have := List.mem_range.mp hj
        omega) hijeq
    · have hlt : j < i := by omega
      exact hdist j i hlt (by
        have := List.mem_range.mp hi
        omega) hijeq.symm
  have hsub : L ⊆ (dbKeys db).map some := by
    intro o ho
    obtain ⟨i, hi, rfl⟩ := List.mem_map.mp ho
    have hik : i ≤ k := by
      have := List.mem_range.mp hi
      omega
    obtain ⟨x, hx⟩ := mchain_isSome_of_le hspec (show i ≤ k + 1 by omega)
    rw [hx]
    exact List.mem_map.mpr ⟨x, mchain_mem_keys hspec hik hx, rfl⟩
  have h1 : L.length = k + 1 := by simp [hL]
  have h2 : L.toFinset.card = L.length := List.toFinset_card_of_nodup hnd
  have h3 : L.toFinset ⊆ ((dbKeys db).map some).toFinset := by
    intro x hx
    exact List.mem_toFinset.mpr (hsub (List.mem_toFinset.mp hx))
  have h4 : ((dbKeys db).map some).toFinset.card ≤ ((dbKeys db).map some).length :=
    List.toFinset_card_le _
  have h5 : ((dbKeys db).map some).length = db.length := by simp [dbKeys]
  have := Finset.card_le_card h3
  omega

theorem is_in_hierarchy_iff (db : Db) (hwf : DbWF db) (u c : Nat) :
    is_in_hierarchy db u c = true ↔ (u = c ∨ ReachesUp db c u) := by
  unfold is_in_hierarchy
  by_cases huc : u = c
  · rw [if_pos huc]
    simp [huc]
  · rw [if_neg huc]
    constructor
    · intro h
      exact Or.inr (hierAux_sound db u _ _ _ h)
    · rintro (h | h)
      · exact absurd h huc
      · obtain hex := reachesUp_mchain h
        have hspec := Nat.find_spec hex
        refine hierAux_complete db u (Nat.find hex) c [] (db.length + 2) hspec ?_
          (minimal_mchain_distinct hex) ?_
        · intro i hik x hx
          refine ⟨keys_ne_zero hwf (mchain_mem_keys hspec hik hx), ?_⟩
          intro hmem
          cases hmem
        · have := minimal_mchain_le hex
          omega

/-- Claim C1: when an identity's resolved scope for a non-create action is
`subordinates`, the access decision is true for the identity's own
resources, true for any descendant's resources, and false for the resources
of any other identity (in particular siblings and unrelated identities). -/
theorem c1_subordinates_scope_decision (s : RbacDb) (uid : Nat) (comp a : String)
    (hwf : DbWF s.users)
    (hscope : get_user_permissions s uid comp a = some "subordinates")
    (hnc : a ≠ "create") :
    check_permission s uid comp a (some uid) = true
    ∧ (∀ owner : Nat, ReachesUp s.users owner uid →
        check_permission s uid comp a (some owner) = true)
    ∧ (∀ owner : Nat, owner ≠ uid → ¬ ReachesUp s.users owner uid →
        check_permission s uid comp a (some owner) = false) := by
  unfold check_permission
  simp only [hscope]
  have hall : ¬ ("subordinates" : String) = "all" := by decide
  have hown : ¬ ("subordinates" : String) = "own" := by decide
  simp only [if_neg hall, if_neg hown,
    if_pos (rfl : ("subordinates" : String) = "subordinates"), if_neg hnc, if_true]
  refine ⟨by simp, ?_, ?_⟩
  · intro owner hr
    by_cases h : owner = uid
    · simp [h]
    · simp only [if_neg h]
      exact (is_in_hierarchy_iff s.users hwf uid owner).mpr (Or.inr hr)
  · intro owner hne hnr
    simp only [if_neg hne]
    cases hb : is_in_hierarchy s.users uid owner with
    | false => rfl
    | true =>
      exfalso
      rcases (is_in_hierarchy_iff s.users hwf uid owner).mp hb with h | h
      · exact hne h.symm
      · exact hnr h

/-- Witness for C1 at a concrete state: user 1 has `read: subordinates` on
tasks; the decision is true for 1's own resources and for descendant 3's
(two levels down), and false for the unrelated user 4's. -/
theorem c1_witness :
    DbWF rbacS.users
    ∧ get_user_permissions rbacS 1 "tasks" "read" = some "subordinates"
    ∧ check_permission rbacS 1 "tasks" "read" (some 1) = true
    ∧ check_permission rbacS 1 "tasks" "read" (some 3) = true
    ∧ check_permission rbacS 1 "tasks" "read" (some 4) = false := by
  have hwf : DbWF rbacS.users := ⟨by decide, by decide⟩
  have hscope : get_user_permissions rbacS 1 "tasks" "read" = some "subordinates" := by
    decide
  have h := c1_subordinates_scope_decision rbacS 1 "tasks" "read" hwf hscope (by decide)
  refine ⟨hwf, hscope, h.1, ?_, ?_⟩
  · exact h.2.1 3 (ReachesUp.step (p := 2) (by decide) (ReachesUp.direct (by decide)))
  · refine h.2.2 4 (by decide) ?_
    intro hr
    have ht := (is_in_hierarchy_iff rbacS.users hwf 1 4).mpr (Or.inr hr)
    exact absurd ht (by decide)

/-! ## Lemmas: downward traversal, potential functions, termination -/

theorem subsOf_subset_keys {db : Db} {c x : Nat} (h : x ∈ subsOf db c) :
    x ∈ dbKeys db := by
  unfold subsOf at h
  obtain ⟨p, hp, hpx⟩ := List.mem_map.mp h
  exact hpx ▸ List.mem_map.mpr ⟨p, List.mem_of_mem_filter hp, rfl⟩

theorem subsOf_cons_length (p : Nat × Option Nat) (rest : Db) (c : Nat) :
    (subsOf (p :: rest) c).length
      = (if p.2 = some c then 1 else 0) + (subsOf rest c).length := by
  unfold subsOf
  by_cases h : p.2 = some c
  · simp [List.filter_cons, h]
    omega
  · simp [List.filter_cons, h]

theorem sum_subsOf_le (db : Db) (C : Finset Nat) :
    (∑ c ∈ C, (subsOf db c).length) ≤ db.length := by
  induction db with
  | nil => simp [subsOf]
  | cons p rest ih =>
    have hsplit : (∑ c ∈ C, (subsOf (p :: rest) c).length)
        = (∑ c ∈ C, (if p.2 = some c then 1 else 0))
          + (∑ c ∈ C, (subsOf rest c).length) := by
      rw [← Finset.sum_add_distrib]
      exact Finset.sum_congr rfl fun c _ => subsOf_cons_length p rest c
    have hone : (∑ c ∈ C, (if p.2 = some c then 1 else 0)) ≤ 1 := by
      cases hp2 : p.2 with
      | none => simp
      | some m =>
        have : (∑ c ∈ C, (if some m = some c then 1 else 0))
            = (∑ c ∈ C, (if m = c then (fun _ => 1) c else 0)) := by
          refine Finset.sum_congr rfl fun c _ => ?_
          simp
        rw [this, Finset.sum_ite_eq]
        split_ifs <;> omega
    rw [hsplit]
    simp only [List.length_cons]
    omega

theorem bfsAux_ids_subset (db : Db) :
    ∀ (fuel : Nat) (queue visited ids : List Nat),
      ids ⊆ bfsAux db fuel queue visited ids := by
  intro fuel
  induction fuel with
  | zero => intro queue visited ids; unfold bfsAux; exact fun _ h => h
  | succ fuel ih =>
    intro queue visited ids
    cases queue with
    | nil => unfold bfsAux; exact fun _ h => h
    | cons c rest =>
      unfold bfsAux
      by_cases hv : c ∈ visited
      · rw [if_pos hv]
        exact ih rest visited ids
      · rw [if_neg hv]
        intro x hx
        exact ih _ _ _ (List.mem_append_left _ hx)

theorem bfsAux_fuel_eq (db : Db) (C : Finset Nat) (hkeys : ∀ x ∈ dbKeys db, x ∈ C) :
    ∀ (n m : Nat) (queue visited ids : List Nat),
      (∀ x ∈ queue, x ∈ C) →
      potB db C queue visited ≤ n → potB db C queue visited ≤ m →
      bfsAux db n queue visited ids = bfsAux db m queue visited ids := by
  intro n
  induction n with
  | zero =>
    intro m queue visited ids _ hn _
    cases queue with
    | nil => cases m <;> rfl
    | cons c rest =>
      exfalso
      unfold potB at hn
      simp only [List.length_cons] at hn
      omega
  | succ n ih =>
    intro m queue visited ids hqc hn hm
    cases queue with
    | nil => cases m <;> rfl
    | cons c rest =>
      have hm1 : 1 ≤ m := by
        unfold potB at hm
        simp only [List.length_cons] at hm
        omega
      obtain ⟨m, rfl⟩ : ∃ m', m = m' + 1 := ⟨m - 1, by omega⟩
      unfold bfsAux
      by_cases hv : c ∈ visited
      · rw [if_pos hv, if_pos hv]
        have hpot : potB db C rest visited ≤ potB db C (c :: rest) visited - 1 := by
          unfold potB
          simp only [List.length_cons]
          omega
        exact ih m rest visited ids (fun x hx => hqc x (List.mem_cons_of_mem _ hx))
          (by omega) (by omega)
      · rw [if_neg hv, if_neg hv]
        have hcC : c ∈ C := hqc c (List.mem_cons_self _ _)
        have hcmem : c ∈ C \ visited.toFinset := by
          rw [Finset.mem_sdiff]
          exact ⟨hcC, fun hmem => hv (List.mem_toFinset.mp hmem)⟩
        have hsum : (∑ x ∈ C \ (c :: visited).toFinset, (subsOf db x).length)
              + (subsOf db c).length
            = ∑ x ∈ C \ visited.toFinset, (subsOf db x).length := by
          rw [List.toFinset_cons, Finset.sdiff_insert]
          exact Finset.sum_erase_add _ _ hcmem
        have hpot : potB db C (rest ++ subsOf db c) (c :: visited)
            = potB db C (c :: rest) visited - 1 := by
          unfold potB
          simp only [List.length_append, List.length_cons]
          omega
        refine ih m (rest ++ subsOf db c) (c :: visited) (ids ++ subsOf db c) ?_
          (by omega) (by omega)
        intro x hx
        rcases List.mem_append.mp hx with hx | hx
        · exact hqc x (List.mem_cons_of_mem _ hx)
        · exact hkeys x (subsOf_subset_keys hx)

theorem potB_start_le (db : Db) (C : Finset Nat) (q : Nat) :
    potB db C [q] [] ≤ db.length + 1 := by
  unfold potB
  have h1 : ([] : List Nat).toFinset = (∅ : Finset Nat) := rfl
  rw [h1, Finset.sdiff_empty]
  have := sum_subsOf_le db C
  simp only [List.length_cons, List.length_nil]
  omega

theorem potH_pos (db : Db) (visited : List Nat) : 1 ≤ potH db visited := by
  unfold potH
  omega

theorem potH_cons {db : Db} {c : Nat} (visited : List Nat) (hck : c ∈ dbKeys db)
    (hv : c ∉ visited) : potH db (c :: visited) = potH db visited - 1 := by
  have hmem : c ∈ (db.map (fun p => p.1)).toFinset \ visited.toFinset := by
    rw [Finset.mem_sdiff]
    exact ⟨List.mem_toFinset.mpr hck, fun hmm => hv (List.mem_toFinset.mp hmm)⟩
  have hpos : 0 < ((db.map (fun p => p.1)).toFinset \ visited.toFinset).card :=
    Finset.card_pos.mpr ⟨c, hmem⟩
  unfold potH
  rw [List.toFinset_cons, Finset.sdiff_insert, Finset.card_erase_of_mem hmem]
  omega

theorem hierAux_fuel_eq (db : Db) (t : Nat) :
    ∀ (n m : Nat) (visited : List Nat) (cur : Option Nat),
      potH db visited ≤ n → potH db visited ≤ m →
      hierAux db t n visited cur = hierAux db t m visited cur := by
  intro n
  induction n with
  | zero =>
    intro m visited cur hn _
    exact absurd hn (by have := potH_pos db visited; omega)
  | succ n ih =>
    intro m visited cur hn hm
    have hm1 : 1 ≤ m := le_trans (potH_pos db visited) hm
    obtain ⟨m, rfl⟩ : ∃ mm, m = mm + 1 := ⟨m - 1, by omega⟩
    cases cur with
    | none => rfl
    | some c =>
      unfold hierAux
      by_cases hc : c = 0
      · rw [if_pos hc, if_pos hc]
      · rw [if_neg hc, if_neg hc]
        by_cases hv : c ∈ visited
        · rw [if_pos hv, if_pos hv]
        · rw [if_neg hv, if_neg hv]
          cases hmg : managerOf db c with
          | none => rfl
          | some mm =>
            show (if mm = t then true else hierAux db t n (c :: visited) (some mm))
              = (if mm = t then true else hierAux db t m (c :: visited) (some mm))
            by_cases hmt : mm = t
            · rw [if_pos hmt, if_pos hmt]
            · rw [if_neg hmt, if_neg hmt]
              have hpot := potH_cons visited (managerOf_mem_keys hmg) hv
              exact ih m (c :: visited) (some mm) (by omega) (by omega)

theorem chainAux_fuel_eq (db : Db) :
    ∀ (n m : Nat) (visited : List Nat) (c : Nat),
      potH db visited ≤ n → potH db visited ≤ m →
      chainAux db n visited c = chainAux db m visited c := by
  intro n
  induction n with
  | zero =>
    intro m visited c hn _
    exact absurd hn (by have := potH_pos db visited; omega)
  | succ n ih =>
    intro m visited c hn hm
    have hm1 : 1 ≤ m := le_trans (potH_pos db visited) hm
    obtain ⟨m, rfl⟩ : ∃ mm, m = mm + 1 := ⟨m - 1, by omega⟩
    unfold chainAux
    by_cases hc : c = 0
    · rw [if_pos hc, if_pos hc]
    · rw [if_neg hc, if_neg hc]
      by_cases hv : c ∈ visited
      · rw [if_pos hv, if_pos hv]
      · rw [if_neg hv, if_neg hv]
        cases hr : rowOf db c with
        | none => rfl
        | some mo =>
          cases mo with
          | none => rfl
          | some mgr =>
            show (if mgr = 0 then [] else
                match rowOf db mgr with
                | none => []
                | some _ => mgr :: chainAux db n (c :: visited) mgr)
              = (if mgr = 0 then [] else
                match rowOf db mgr with
                | none => []
                | some _ => mgr :: chainAux db m (c :: visited) mgr)
            by_cases hm0 : mgr = 0
            · rw [if_pos hm0, if_pos hm0]
            · rw [if_neg hm0, if_neg hm0]
              cases hr2 : rowOf db mgr with
              | none => rfl
              | some v =>
                have hck : c ∈ dbKeys db := rowOf_mem_keys hr
                have hpot := potH_cons visited hck hv
                exact congrArg (fun l => mgr :: l)
                  (ih m (c :: visited) mgr (by omega) (by omega))

theorem rowOf_mem {db : Db} {c : Nat} {m : Option Nat} (h : rowOf db c = some m) :
    (c, m) ∈ db := by
  induction db with
  | nil => cases h
  | cons p rest ih =>
    unfold rowOf at h
    by_cases hp : p.1 = c
    · rw [if_pos hp] at h
      obtain rfl := Option.some.inj h
      have : p = (c, p.2) := by
        rcases p with ⟨a, b⟩
        simp only at hp
        rw [hp]
      exact this ▸ List.mem_cons_self _ _
    · rw [if_neg hp] at h
      exact List.mem_cons_of_mem _ (ih h)

theorem managerOf_mem_subsOf {db : Db} {c y : Nat} (h : managerOf db c = some y) :
    c ∈ subsOf db y := by
  unfold managerOf at h
  cases hr : rowOf db c with
  | none => rw [hr] at h; cases h
  | some mo =>
    rw [hr] at h
    have hmo : mo = some y := h
    subst hmo
    unfold subsOf
    refine List.mem_map.mpr ⟨(c, some y), ?_, rfl⟩
    refine List.mem_filter.mpr ⟨rowOf_mem hr, ?_⟩
    simp

theorem rowOf_isSome_of_mem {db : Db} {c : Nat} (h : c ∈ dbKeys db) :
    ∃ v, rowOf db c = some v := by
  induction db with
  | nil => cases h
  | cons p rest ih =>
    unfold rowOf
    by_cases hp : p.1 = c
    · exact ⟨p.2, by rw [if_pos hp]⟩
    · rcases List.mem_cons.mp h with hc | hc
      · exact absurd hc.symm hp
      · rw [if_neg hp]
        exact ih hc

theorem reachesUp_snoc {db : Db} {z u : Nat} (h : ReachesUp db z u) :
    managerOf db z = some u
    ∨ ∃ d, managerOf db d = some u ∧ ReachesUp db z d := by
  induction h with
  | direct hm => exact Or.inl hm
  | step hm _ ih =>
    rcases ih with hd | ⟨d, hdu, hpd⟩
    · exact Or.inr ⟨_, hd, ReachesUp.direct hm⟩
    · exact Or.inr ⟨d, hdu, ReachesUp.step hm hpd⟩

theorem closed_reach (db : Db) (V I : List Nat)
    (hcl : ∀ v ∈ V, ∀ x ∈ subsOf db v, x ∈ I ∧ x ∈ V) :
    ∀ z y, ReachesUp db z y → y ∈ V → z ∈ I ∧ z ∈ V := by
  intro z y h
  induction h with
  | direct hm =>
    intro hy
    exact hcl _ hy _ (managerOf_mem_subsOf hm)
  | step hm _ ih =>
    intro hy
    obtain ⟨-, hpV⟩ := ih hy
    exact hcl _ hpV _ (managerOf_mem_subsOf hm)

theorem bfsAux_reaches (db : Db) (C : Finset Nat) (hkeys : ∀ x ∈ dbKeys db, x ∈ C) :
    ∀ (fuel : Nat) (queue visited ids : List Nat),
      (∀ x ∈ queue, x ∈ C) →
      potB db C queue visited ≤ fuel →
      (∀ v ∈ visited, ∀ x ∈ subsOf db v, x ∈ ids ∧ (x ∈ visited ∨ x ∈ queue)) →
      ∀ y, (y ∈ queue ∨ y ∈ visited) → ∀ z, ReachesUp db z y →
        z ∈ bfsAux db fuel queue visited ids := by
  intro fuel
  induction fuel with
  | zero =>
    intro queue visited ids _ hpot hinv y hy z hz
    have hq : queue = [] := by
      cases queue with
      | nil => rfl
      | cons c rest =>
        exfalso
        unfold potB at hpot
        simp only [List.length_cons] at hpot
        omega
    subst hq
    have hcl : ∀ v ∈ visited, ∀ x ∈ subsOf db v, x ∈ ids ∧ x ∈ visited := by
      intro v hv x hx
      obtain ⟨h1, h2⟩ := hinv v hv x hx
      rcases h2 with h2 | h2
      · exact ⟨h1, h2⟩
      · cases h2
    rcases hy with hy | hy
    · cases hy
    · exact (closed_reach db visited ids hcl z y hz hy).1
  | succ fuel ih =>
    intro queue visited ids hqc hpot hinv y hy z hz
    cases queue with
    | nil =>
      have hcl : ∀ v ∈ visited, ∀ x ∈ subsOf db v, x ∈ ids ∧ x ∈ visited := by
        intro v hv x hx
        obtain ⟨h1, h2⟩ := hinv v hv x hx
        rcases h2 with h2 | h2
        · exact ⟨h1, h2⟩
        · cases h2
      rcases hy with hy | hy
      · cases hy
      · exact (closed_reach db visited ids hcl z y hz hy).1
    | cons c rest =>
      unfold bfsAux
      by_cases hv : c ∈ visited
      · rw [if_pos hv]
        have hpot' : potB db C rest visited ≤ fuel := by
          unfold potB at hpot ⊢
          simp only [List.length_cons] at hpot
          omega
        refine ih rest visited ids (fun x hx => hqc x (List.mem_cons_of_mem _ hx))
          hpot' ?_ y ?_ z hz
        · intro v hvv x hx
          obtain ⟨h1, h2⟩ := hinv v hvv x hx
          refine ⟨h1, ?_⟩
          rcases h2 with h2 | h2
          · exact Or.inl h2
          · rcases List.mem_cons.mp h2 with rfl | h2
            · exact Or.inl hv
            · exact Or.inr h2
        · rcases hy with hy | hy
          · rcases List.mem_cons.mp hy with rfl | hy
            · exact Or.inr hv
            · exact Or.inl hy
          · exact Or.inr hy
      · rw [if_neg hv]
        have hcC : c ∈ C := hqc c (List.mem_cons_self _ _)
        have hcmem : c ∈ C \ visited.toFinset := by
          rw [Finset.mem_sdiff]
          exact ⟨hcC, fun hmm => hv (List.mem_toFinset.mp hmm)⟩
        have hsum : (∑ x ∈ C \ (c :: visited).toFinset, (subsOf db x).length)
              + (subsOf db c).length
            = ∑ x ∈ C \ visited.toFinset, (subsOf db x).length := by
          rw [List.toFinset_cons, Finset.sdiff_insert]
          exact Finset.sum_erase_add _ _ hcmem
        have hpot' : potB db C (rest ++ subsOf db c) (c :: visited) ≤ fuel := by
          unfold potB at hpot ⊢
          simp only [List.length_append, List.length_cons] at hpot ⊢
          omega
        have hqc' : ∀ x ∈ rest ++ subsOf db c, x ∈ C := by
          intro x hx
          rcases List.mem_append.mp hx with hx | hx
          · exact hqc x (List.mem_cons_of_mem _ hx)
          · exact hkeys x (subsOf_subset_keys hx)
        have hinv' : ∀ v ∈ c :: visited, ∀ x ∈ subsOf db v,
            x ∈ ids ++ subsOf db c ∧ (x ∈ c :: visited ∨ x ∈ rest ++ subsOf db c) := by
          intro v hvv x hx
          rcases List.mem_cons.mp hvv with rfl | hvv
          · exact ⟨List.mem_append_right _ hx, Or.inr (List.mem_append_right _ hx)⟩
          · obtain ⟨h1, h2⟩ := hinv v hvv x hx
            refine ⟨List.mem_append_left _ h1, ?_⟩
            rcases h2 with h2 | h2
            · exact Or.inl (List.mem_cons_of_mem _ h2)
            · rcases List.mem_cons.mp h2 with rfl | h2
              · exact Or.inl (List.mem_cons_self _ _)
              · exact Or.inr (List.mem_append_left _ h2)
        rcases hy with hy | hy
        · rcases List.mem_cons.mp hy with rfl | hy
          · rcases reachesUp_snoc hz with hdir | ⟨d, hd, hzd⟩
            · exact bfsAux_ids_subset db fuel _ _ _
                (List.mem_append_right _ (managerOf_mem_subsOf hdir))
            · exact ih _ _ _ hqc' hpot' hinv' d
                (Or.inl (List.mem_append_right _ (managerOf_mem_subsOf hd))) z hzd
          · exact ih _ _ _ hqc' hpot' hinv' y
              (Or.inl (List.mem_append_left _ hy)) z hz
        · exact ih _ _ _ hqc' hpot' hinv' y
            (Or.inr (List.mem_cons_of_mem _ hy)) z hz

theorem reachesUp_in_subordinates {db : Db} {z m : Nat} (h : ReachesUp db z m) :
    z ∈ get_all_subordinate_ids db m := by
  unfold get_all_subordinate_ids
  refine bfsAux_reaches db (insert m (dbKeys db).toFinset)
    (fun x hx => Finset.mem_insert_of_mem (List.mem_toFinset.mpr hx))
    (db.length + 1) [m] [] _ ?_ (potB_start_le db _ m) ?_ m (Or.inl ?_) z h
  · intro x hx
    rcases List.mem_cons.mp hx with rfl | hx
    · exact Finset.mem_insert_self _ _
    · cases hx
  · intro v hv
    cases hv
  · exact List.mem_cons_self _ _

theorem dbKeys_set (db : Db) (u : Nat) (m : Option Nat) :
    dbKeys (setManagerEdge db u m) = dbKeys db := by
  unfold dbKeys setManagerEdge
  rw [List.map_map]
  refine List.map_congr_left ?_
  intro p _
  by_cases hp : p.1 = u <;> simp [hp]

theorem rowOf_set_self (db : Db) (u : Nat) (v m : Option Nat) :
    rowOf db u = some v → rowOf (setManagerEdge db u m) u = some m := by
  induction db with
  | nil => intro h; cases h
  | cons p rest ih =>
    intro h
    show rowOf ((if p.1 = u then (p.1, m) else p) :: setManagerEdge rest u m) u = some m
    by_cases hp : p.1 = u
    · rw [if_pos hp]
      show (if p.1 = u then some m else rowOf (setManagerEdge rest u m) u) = some m
      rw [if_pos hp]
    · rw [if_neg hp]
      show (if p.1 = u then some p.2 else rowOf (setManagerEdge rest u m) u) = some m
      rw [if_neg hp]
      refine ih ?_
      have hcons : rowOf (p :: rest) u
          = if p.1 = u then some p.2 else rowOf rest u := rfl
      rw [hcons, if_neg hp] at h
      exact h

theorem rowOf_set_other (db : Db) (u x : Nat) (m : Option Nat) (h : x ≠ u) :
    rowOf (setManagerEdge db u m) x = rowOf db x := by
  induction db with
  | nil => rfl
  | cons p rest ih =>
    show rowOf ((if p.1 = u then (p.1, m) else p) :: setManagerEdge rest u m) x
      = rowOf (p :: rest) x
    by_cases hp : p.1 = u
    · rw [if_pos hp]
      show (if p.1 = x then some m else rowOf (setManagerEdge rest u m) x)
        = (if p.1 = x then some p.2 else rowOf rest x)
      have hpx : ¬ p.1 = x := fun hc => h (hc ▸ hp)
      rw [if_neg hpx, if_neg hpx]
      exact ih
    · rw [if_neg hp]
      show (if p.1 = x then some p.2 else rowOf (setManagerEdge rest u m) x)
        = (if p.1 = x then some p.2 else rowOf rest x)
      by_cases hpx : p.1 = x
      · rw [if_pos hpx, if_pos hpx]
      · rw [if_neg hpx, if_neg hpx]
        exact ih

theorem update_ok {db db' : Db} {s m : Nat}
    (h : update_user_manager db s (some m) = .ok db') :
    (∃ v, rowOf db s = some v) ∧ m ≠ s ∧ (∃ v, rowOf db m = some v)
    ∧ (m ≠ 0 → m ∉ get_all_subordinate_ids db s)
    ∧ db' = setManagerEdge db s (some m) := by
  unfold update_user_manager at h
  cases hs : rowOf db s with
  | none => rw [hs] at h; cases h
  | some vs =>
    simp only [hs] at h
    by_cases hms : m = s
    · rw [if_pos hms] at h
      cases h
    · rw [if_neg hms] at h
      cases hm : rowOf db m with
      | none =>
        rw [hm] at h
        cases h
      | some vm =>
        simp only [hm] at h
        by_cases hm0 : m ≠ 0
        · rw [if_pos hm0] at h
          by_cases hmem : m ∈ get_all_subordinate_ids db s
          · rw [if_pos hmem] at h
            cases h
          · rw [if_neg hmem] at h
            refine ⟨⟨vs, rfl⟩, hms, ⟨vm, rfl⟩, fun _ => hmem, ?_⟩
            cases h
            rfl
        · rw [if_neg hm0] at h
          refine ⟨⟨vs, rfl⟩, hms, ⟨vm, rfl⟩, fun hc => absurd hc hm0, ?_⟩
          cases h
          rfl

/-- Claim C2: the manager graph stays acyclic under `update_user_manager`.
If assigning A as B's manager and then B as C's manager both succeed, then
assigning C as A's manager fails with the circular-dependency error, and A's
row is untouched by the two successful assignments (an erroring call returns
before any write, so the edge is unchanged).  In general, any assignment
whose candidate manager (a real, nonzero id) lies among the subject's
subordinates is rejected. -/
theorem c2_manager_cycle_rejected :
    (∀ (db db1 db2 : Db) (idA idB idC : Nat), DbWF db →
        update_user_manager db idB (some idA) = .ok db1 →
        update_user_manager db1 idC (some idB) = .ok db2 →
        update_user_manager db2 idA (some idC) = .error .cycle
        ∧ rowOf db2 idA = rowOf db idA)
    ∧ (∀ (db : Db) (s m : Nat), m ≠ 0 → m ∈ get_all_subordinate_ids db s →
        (update_user_manager db s (some m)).isOk = false) := by
  constructor
  · intro db db1 db2 idA idB idC hwf h1 h2
    obtain ⟨⟨vB, hrB⟩, hAB, ⟨vA, hrA⟩, -, hdb1⟩ := update_ok h1
    obtain ⟨⟨vC1, hrC1⟩, hBC, ⟨vB1, hrB1⟩, hcyc2, hdb2⟩ := update_ok h2
    subst hdb1
    subst hdb2
    have hAk : idA ∈ dbKeys db := rowOf_mem_keys hrA
    have hBk : idB ∈ dbKeys db := rowOf_mem_keys hrB
    have hCk : idC ∈ dbKeys db := by
      have := rowOf_mem_keys hrC1
      rwa [dbKeys_set] at this
    have hA0 : idA ≠ 0 := keys_ne_zero hwf hAk
    have hB0 : idB ≠ 0 := keys_ne_zero hwf hBk
    have hC0 : idC ≠ 0 := keys_ne_zero hwf hCk
    have hmB1 : managerOf (setManagerEdge db idB (some idA)) idB = some idA := by
      unfold managerOf
      rw [rowOf_set_self db idB vB (some idA) hrB]
      rfl
    have hCA : idC ≠ idA := by
      intro hca
      subst hca
      refine hcyc2 hB0 (reachesUp_in_subordinates ?_)
      exact ReachesUp.direct hmB1
    have hmB2 : managerOf (setManagerEdge (setManagerEdge db idB (some idA)) idC
        (some idB)) idB = some idA := by
      unfold managerOf
      rw [rowOf_set_other _ idC idB (some idB) hBC,
        rowOf_set_self db idB vB (some idA) hrB]
      rfl
    have hmC2 : managerOf (setManagerEdge (setManagerEdge db idB (some idA)) idC
        (some idB)) idC = some idB := by
      unfold managerOf
      rw [rowOf_set_self _ idC vC1 (some idB) hrC1]
      rfl
    have hmem : idC ∈ get_all_subordinate_ids
        (setManagerEdge (setManagerEdge db idB (some idA)) idC (some idB)) idA :=
      reachesUp_in_subordinates (ReachesUp.step hmC2 (ReachesUp.direct hmB2))
    constructor
    · unfold update_user_manager
      have hAk2 : idA ∈ dbKeys
          (setManagerEdge (setManagerEdge db idB (some idA)) idC (some idB)) := by
        rw [dbKeys_set, dbKeys_set]
        exact hAk
      obtain ⟨vA2, hrA2⟩ := rowOf_isSome_of_mem hAk2
      simp only [hrA2]
      rw [if_neg hCA]
      have hCk2 : idC ∈ dbKeys
          (setManagerEdge (setManagerEdge db idB (some idA)) idC (some idB)) := by
        rw [dbKeys_set, dbKeys_set]
        exact hCk
      obtain ⟨vC2, hrC2⟩ := rowOf_isSome_of_mem hCk2
      simp only [hrC2]
      rw [if_pos hC0, if_pos hmem]
    · rw [rowOf_set_other _ idC idA (some idB) (fun hc => hCA hc.symm),
        rowOf_set_other _ idB idA (some idA) hAB]
  · intro db s m hm0 hmem
    cases hu : update_user_manager db s (some m) with
    | error e => rfl
    | ok db' =>
      exfalso
      obtain ⟨-, -, -, hcyc, -⟩ := update_ok hu
      exact hcyc hm0 hmem

/-- Witness for C2 at a concrete state: with three initially unmanaged users,
making 1 manage 2 and 2 manage 3 succeeds, after which making 3 manage 1 is
rejected as a circular dependency. -/
theorem c2_witness :
    DbWF [(1, (none : Option Nat)), (2, none), (3, none)]
    ∧ update_user_manager [(1, none), (2, none), (3, none)] 2 (some 1)
        = .ok [(1, none), (2, some 1), (3, none)]
    ∧ update_user_manager [(1, none), (2, some 1), (3, none)] 3 (some 2)
        = .ok [(1, none), (2, some 1), (3, some 2)]
    ∧ update_user_manager [(1, none), (2, some 1), (3, some 2)] 1 (some 3)
        = .error .cycle := by
  have hwf : DbWF [(1, (none : Option Nat)), (2, none), (3, none)] :=
    ⟨by decide, by decide⟩
  have h1 : update_user_manager [(1, none), (2, none), (3, none)] 2 (some 1)
      = .ok [(1, none), (2, some 1), (3, none)] := rfl
  have h2 : update_user_manager [(1, none), (2, some 1), (3, none)] 3 (some 2)
      = .ok [(1, none), (2, some 1), (3, some 2)] := rfl
  exact ⟨hwf, h1, h2,
    (c2_manager_cycle_rejected.1 _ _ _ 1 2 3 hwf h1 h2).1⟩

theorem potH_start_le (db : Db) : potH db [] ≤ db.length + 1 := by
  unfold potH
  have h0 : ([] : List Nat).toFinset = (∅ : Finset Nat) := rfl
  rw [h0, Finset.sdiff_empty]
  have h1 := List.toFinset_card_le (db.map (fun p => p.1))
  simp only [List.length_map] at h1
  omega

/-- Claim C9: all three hierarchy traversals are bounded by their visited-set
guard: on every users table, including corrupted tables containing manager
cycles, giving the loop any fuel beyond one unit per identity (plus slack)
changes nothing — each walk finishes after at most one visit per identity,
so the wrappers' fixed fuel computes the loop's true fixpoint. -/
theorem c9_traversal_terminates :
    (∀ (db : Db) (t c fuel : Nat), db.length + 2 ≤ fuel →
        hierAux db t fuel [] (some c) = hierAux db t (db.length + 2) [] (some c))
    ∧ (∀ (db : Db) (m : Nat) (include_self : Bool) (fuel : Nat), db.length + 1 ≤ fuel →
        bfsAux db fuel [m] [] (if include_self then [m] else [])
          = get_all_subordinate_ids db m include_self)
    ∧ (∀ (db : Db) (c fuel : Nat), db.length + 2 ≤ fuel →
        chainAux db fuel [] c = get_user_manager_chain db c) := by
  refine ⟨?_, ?_, ?_⟩
  · intro db t c fuel hf
    have hpot := potH_start_le db
    exact hierAux_fuel_eq db t fuel (db.length + 2) [] (some c) (by omega) (by omega)
  · intro db m include_self fuel hf
    unfold get_all_subordinate_ids
    refine bfsAux_fuel_eq db (insert m (dbKeys db).toFinset)
      (fun x hx => Finset.mem_insert_of_mem (List.mem_toFinset.mpr hx))
      fuel (db.length + 1) [m] [] _ ?_ ?_ (potB_start_le db _ m)
    · intro x hx
      rcases List.mem_cons.mp hx with rfl | hx
      · exact Finset.mem_insert_self _ _
      · cases hx
    · exact le_trans (potB_start_le db _ m) hf
  · intro db c fuel hf
    have hpot := potH_start_le db
    exact chainAux_fuel_eq db fuel (db.length + 2) [] c (by omega) (by omega)

/-- Witness for C9 on a concretely corrupted table containing the manager
cycle 1 → 2 → 1: extra fuel changes none of the three traversals' results. -/
theorem c9_witness :
    cycleDb.length + 2 ≤ 10
    ∧ hierAux cycleDb 3 10 [] (some 1) = hierAux cycleDb 3 (cycleDb.length + 2) [] (some 1)
    ∧ bfsAux cycleDb 9 [1] [] [1] = get_all_subordinate_ids cycleDb 1 true
    ∧ chainAux cycleDb 10 [] 1 = get_user_manager_chain cycleDb 1 := by
  refine ⟨by decide, c9_traversal_terminates.1 cycleDb 3 1 10 (by decide), ?_,
    c9_traversal_terminates.2.2 cycleDb 1 10 (by decide)⟩
  exact c9_traversal_terminates.2.1 cycleDb 1 true 9 (by decide)

/-! ## Trash lifecycle claims -/

/-- Claim C5 (code bug): the trash listing does not return the global page of
the merged tombstoned records.  With three tombstoned tasks, no tombstoned
users, no type filter, `skip = 0`, `limit = 4`, the code returns only 2 items
(each per-type query is capped at `limit // 2` before merging) although the
merged page holds all 3; and with a type filter and `skip = 1` the offset is
applied twice (once in SQL, once on the merged slice), dropping a record the
page should contain. -/
theorem c5_trash_pagination_bug :
    (get_trash_items trashStore3 none 0 4).length = 2
    ∧ (specMergedTrashPage trashStore3 none 0 4).length = 3
    ∧ get_trash_items trashStore3 none 0 4 ≠ specMergedTrashPage trashStore3 none 0 4
    ∧ (get_trash_items trashStore3 (some "task") 1 10).length = 1
    ∧ (specMergedTrashPage trashStore3 (some "task") 1 10).length = 2 := by
  refine ⟨?_, ?_, ?_, ?_, ?_⟩ <;> decide

/-- Claim C8: `empty_trash` removes every tombstoned record of both governed
types, leaves live records untouched, returns the per-type counts of the
tombstoned records present at call time, and appends exactly one summary
audit entry carrying the aggregate counts. -/
theorem c8_empty_trash (st : Store) (uid : Nat) (email : String) :
    (empty_trash st uid email).2.1
        = (st.users.filter (fun u => u.deleted_at.isSome)).length
    ∧ (empty_trash st uid email).2.2
        = (st.tasks.filter (fun t => t.deleted_at.isSome)).length
    ∧ (empty_trash st uid email).1.users = st.users.filter (fun u => u.deleted_at.isNone)
    ∧ (empty_trash st uid email).1.tasks = st.tasks.filter (fun t => t.deleted_at.isNone)
    ∧ (∀ u ∈ (empty_trash st uid email).1.users, u.deleted_at = none)
    ∧ (∀ t ∈ (empty_trash st uid email).1.tasks, t.deleted_at = none)
    ∧ (empty_trash st uid email).1.audit
        = st.audit ++
          [{ action := "delete", table_name := "trash", record_id := none,
             user_id := some uid, user_email := some email,
             old_values := none, new_values := none,
             description := some ("Emptied trash: "
               ++ toString (st.users.filter (fun u => u.deleted_at.isSome)).length
               ++ " users, "
               ++ toString (st.tasks.filter (fun t => t.deleted_at.isSome)).length
               ++ " tasks permanently deleted") }]
    ∧ (empty_trash st uid email).1.audit.length = st.audit.length + 1 := by
  refine ⟨rfl, rfl, rfl, rfl, ?_, ?_, rfl, ?_⟩
  · intro u hu
    have h := List.of_mem_filter
      (show u ∈ st.users.filter (fun u => u.deleted_at.isNone) from hu)
    exact Option.isNone_iff_eq_none.mp (by simpa using h)
  · intro t ht
    have h := List.of_mem_filter
      (show t ∈ st.tasks.filter (fun t => t.deleted_at.isNone) from ht)
    exact Option.isNone_iff_eq_none.mp (by simpa using h)
  · show (st.audit ++ [_]).length = st.audit.length + 1
    rw [List.length_append]
    rfl

/-- Claim C10: for any item type other than `user` and `task`, both
`restore_item` and `permanently_delete` return false and leave the store
(records and audit log alike) completely unchanged — exactly the behavior of
a record not found in trash. -/
theorem c10_unknown_type_noop (st : Store) (t : String) (item_id uid : Nat)
    (email : String) (now : Nat) (h1 : t ≠ "user") (h2 : t ≠ "task") :
    restore_item st t item_id uid email now = (false, st)
    ∧ permanently_delete st t item_id uid email = (false, st) := by
  constructor
  · unfold restore_item
    rw [if_neg h1, if_neg h2]
  · unfold permanently_delete
    rw [if_neg h1, if_neg h2]

/-- Witness for C10 at a concrete store and the concrete unknown type
`role`. -/
theorem c10_witness :
    restore_item trashStore3 "role" 1 9 "admin@example.com" 5 = (false, trashStore3)
    ∧ permanently_delete trashStore3 "role" 1 9 "admin@example.com" = (false, trashStore3) :=
  c10_unknown_type_noop trashStore3 "role" 1 9 "admin@example.com" 5
    (by decide) (by decide)

/-- Counterexample for C7: on the user-deletion path the tombstone is set and
committed first; no audit entry with a before-state snapshot precedes it.
The concrete successful deletion of user 2 by admin 1 produces the trace
tombstone-set, data-commit, audit-commit-without-before-state, violating the
claim "for every record and every deletion path". -/
theorem c7_order_counterexample :
    (delete_user twoUserStore 2 1 "a@example.com" 5).1.isOk = true
    ∧ auditedBeforeTombstone (delete_user twoUserStore 2 1 "a@example.com" 5).2 = false :=
  ⟨by decide, by decide⟩

/-- Claim C7 (amended): the task-deletion path always commits the audit entry
with the before-state snapshot before setting the tombstone, but the
user-deletion path sets and commits the tombstone first and records its
audit entry — without a before-state snapshot — afterwards. -/
theorem c7_order_amended :
    (∀ (st : Store) (tid uid : Nat) (em : Option String) (now : Nat),
        auditedBeforeTombstone (delete_task st tid uid em now).2 = true)
    ∧ (∀ (st : Store) (uid cur : Nat) (em : String) (now : Nat),
        (delete_user st uid cur em now).1.isOk = true →
          (delete_user st uid cur em now).2
            = [.tombstoneSet, .dataCommit, .auditCommit false]) := by
  constructor
  · intro st tid uid em now
    unfold delete_task
    cases hf : st.tasks.find? (fun t =>
        t.id == tid && t.user_id == uid && t.deleted_at.isNone) with
    | none => rfl
    | some t => rfl
  · intro st uid cur em now h
    unfold delete_user at h ⊢
    by_cases he : uid = cur
    · rw [if_pos he] at h
      exact absurd h (by decide)
    · rw [if_neg he] at h ⊢
      cases hf : st.users.find? (fun u => u.id == uid && u.deleted_at.isNone) with
      | none =>
        simp only [hf] at h
        exact absurd h (by decide)
      | some u => rfl

/-- Witness for C7 (amended) at concrete stores: a successful task deletion
audits before tombstoning, and the successful user deletion produces the
tombstone-first trace. -/
theorem c7_witness :
    auditedBeforeTombstone (delete_task liveTaskStore 7 1 (some "a@example.com") 5).2 = true
    ∧ (delete_user twoUserStore 2 1 "a@example.com" 5).1.isOk = true
    ∧ (delete_user twoUserStore 2 1 "a@example.com" 5).2
        = [.tombstoneSet, .dataCommit, .auditCommit false] :=
  ⟨c7_order_amended.1 liveTaskStore 7 1 (some "a@example.com") 5, by decide,
   c7_order_amended.2 twoUserStore 2 1 "a@example.com" 5 (by decide)⟩

theorem unique_by_key {α : Type} (key : α → Nat) :
    ∀ (l : List α), (l.map key).Nodup → ∀ u ∈ l, ∀ v ∈ l, key v = key u → v = u := by
  intro l
  induction l with
  | nil => intro _ u hu; cases hu
  | cons w rest ih =>
    intro hnd u hu v hv hvid
    obtain ⟨hwid, hnd'⟩ := List.nodup_cons.mp hnd
    rcases List.mem_cons.mp hv with hveq | hv2
    · rcases List.mem_cons.mp hu with hueq | hu2
      · rw [hveq, hueq]
      · exfalso
        apply hwid
        have hk : key w = key u := by rw [← hveq]; exact hvid
        rw [hk]
        exact List.mem_map.mpr ⟨u, hu2, rfl⟩
    · rcases List.mem_cons.mp hu with hueq | hu2
      · exfalso
        apply hwid
        have hk : key w = key v := by rw [← hueq]; exact hvid.symm
        rw [hk]
        exact List.mem_map.mpr ⟨v, hv2, rfl⟩
      · exact ih hnd' u hu2 v hv2 hvid

theorem sd_find_user (t1 : Nat) :
    ∀ (l : List UserRec), (l.map (fun v => v.id)).Nodup →
      ∀ u ∈ l, u.deleted_at = none →
        ((l.map (fun v => if v.id = u.id ∧ v.deleted_at.isNone
            then commitUser (v.soft_delete t1) t1 else v)).find?
          (fun v => v.id == u.id && v.deleted_at.isSome))
          = some { u with deleted_at := some t1, updated_at := t1 } := by
  intro l
  induction l with
  | nil => intro _ u hu; cases hu
  | cons w rest ih =>
    intro hnd u hu hdel
    obtain ⟨hwid, hnd'⟩ := List.nodup_cons.mp hnd
    simp only [List.map_cons]
    by_cases hw : w.id = u.id
    · have hwu : w = u :=
        unique_by_key (fun v => v.id) (w :: rest) hnd u hu w (List.mem_cons_self _ _) hw
      subst hwu
      rw [if_pos ⟨rfl, by rw [hdel]; rfl⟩]
      exact List.find?_cons_of_pos _ (by simp [commitUser, UserRec.soft_delete])
    · rw [if_neg (fun hc => hw hc.1)]
      rw [List.find?_cons_of_neg _ (by simp [hw])]
      have hu' : u ∈ rest := by
        rcases List.mem_cons.mp hu with rfl | hu
        · exact absurd rfl hw
        · exact hu
      exact ih hnd' u hu' hdel

theorem roundtrip_map_user (t1 t2 : Nat) :
    ∀ (l : List UserRec), (l.map (fun v => v.id)).Nodup →
      ∀ u ∈ l, u.deleted_at = none →
        ((l.map (fun v => if v.id = u.id ∧ v.deleted_at.isNone
            then commitUser (v.soft_delete t1) t1 else v)).map
          (fun v => if v.id = u.id ∧ v.deleted_at.isSome
            then commitUser v.restore t2 else v))
        = l.map (fun v => if v.id = u.id then { v with updated_at := t2 } else v) := by
  intro l hnd u hu hdel
  rw [List.map_map]
  refine List.map_congr_left ?_
  intro v hv
  show (fun v => if v.id = u.id ∧ v.deleted_at.isSome then commitUser v.restore t2 else v)
      (if v.id = u.id ∧ v.deleted_at.isNone then commitUser (v.soft_delete t1) t1 else v)
    = if v.id = u.id then { v with updated_at := t2 } else v
  by_cases hvid : v.id = u.id
  · have hveq : v = u := unique_by_key (fun r => r.id) l hnd u hu v hv hvid
    subst hveq
    have hda : v.deleted_at = none := hdel
    rw [if_pos ⟨rfl, by rw [hda]; rfl⟩]
    show (if ((commitUser (v.soft_delete t1) t1).id = v.id
          ∧ (commitUser (v.soft_delete t1) t1).deleted_at.isSome)
        then commitUser (commitUser (v.soft_delete t1) t1).restore t2
        else commitUser (v.soft_delete t1) t1)
      = if v.id = v.id then { v with updated_at := t2 } else v
    rw [if_pos (⟨rfl, rfl⟩ : (commitUser (v.soft_delete t1) t1).id = v.id
        ∧ (commitUser (v.soft_delete t1) t1).deleted_at.isSome = true),
      if_pos rfl]
    cases v with
    | mk id em fn ln ia ad ca ua da =>
      have hda' : da = none := hda
      subst hda'
      rfl
  · rw [if_neg (fun hc => hvid hc.1)]
    show (if v.id = u.id ∧ v.deleted_at.isSome then commitUser v.restore t2 else v)
      = if v.id = u.id then { v with updated_at := t2 } else v
    rw [if_neg (fun hc => hvid hc.1), if_neg hvid]

theorem restore_item_user_eq (st' : Store) (iid actor : Nat) (em : String) (t2 : Nat)
    (u₁ : UserRec)
    (hf : st'.users.find? (fun v => v.id == iid && v.deleted_at.isSome) = some u₁) :
    restore_item st' "user" iid actor em t2
      = (true,
         { users := st'.users.map (fun v =>
             if v.id = iid ∧ v.deleted_at.isSome then commitUser v.restore t2 else v),
           tasks := st'.tasks,
           audit := st'.audit ++
             [{ action := "update", table_name := "users",
                record_id := some (toString u₁.id), user_id := some actor,
                user_email := some em, old_values := none, new_values := none,
                description := some ("Restored user from trash: " ++ u₁.email) }] }) := by
  unfold restore_item
  rw [if_pos rfl]
  simp only [hf]
  rfl

theorem sd_find_task (t1 : Nat) :
    ∀ (l : List TaskRec), (l.map (fun v => v.id)).Nodup →
      ∀ u ∈ l, u.deleted_at = none →
        ((l.map (fun v => if v.id = u.id ∧ v.deleted_at.isNone
            then commitTask (v.soft_delete t1) t1 else v)).find?
          (fun v => v.id == u.id && v.deleted_at.isSome))
          = some { u with deleted_at := some t1, updated_at := t1 } := by
  intro l
  induction l with
  | nil => intro _ u hu; cases hu
  | cons w rest ih =>
    intro hnd u hu hdel
    obtain ⟨hwid, hnd'⟩ := List.nodup_cons.mp hnd
    simp only [List.map_cons]
    by_cases hw : w.id = u.id
    · have hwu : w = u :=
        unique_by_key (fun v => v.id) (w :: rest) hnd u hu w (List.mem_cons_self _ _) hw
      subst hwu
      rw [if_pos ⟨rfl, by rw [hdel]; rfl⟩]
      exact List.find?_cons_of_pos _ (by simp [commitTask, TaskRec.soft_delete])
    · rw [if_neg (fun hc => hw hc.1)]
      rw [List.find?_cons_of_neg _ (by simp [hw])]
      have hu' : u ∈ rest := by
        rcases List.mem_cons.mp hu with rfl | hu
        · exact absurd rfl hw
        · exact hu
      exact ih hnd' u hu' hdel

theorem roundtrip_map_task (t1 t2 : Nat) :
    ∀ (l : List TaskRec), (l.map (fun v => v.id)).Nodup →
      ∀ u ∈ l, u.deleted_at = none →
        ((l.map (fun v => if v.id = u.id ∧ v.deleted_at.isNone
            then commitTask (v.soft_delete t1) t1 else v)).map
          (fun v => if v.id = u.id ∧ v.deleted_at.isSome
            then commitTask v.restore t2 else v))
        = l.map (fun v => if v.id = u.id then { v with updated_at := t2 } else v) := by
  intro l hnd u hu hdel
  rw [List.map_map]
  refine List.map_congr_left ?_
  intro v hv
  show (fun v => if v.id = u.id ∧ v.deleted_at.isSome then commitTask v.restore t2 else v)
      (if v.id = u.id ∧ v.deleted_at.isNone then commitTask (v.soft_delete t1) t1 else v)
    = if v.id = u.id then { v with updated_at := t2 } else v
  by_cases hvid : v.id = u.id
  · have hveq : v = u := unique_by_key (fun r => r.id) l hnd u hu v hv hvid
    subst hveq
    have hda : v.deleted_at = none := hdel
    rw [if_pos ⟨rfl, by rw [hda]; rfl⟩]
    show (if ((commitTask (v.soft_delete t1) t1).id = v.id
          ∧ (commitTask (v.soft_delete t1) t1).deleted_at.isSome)
        then commitTask (commitTask (v.soft_delete t1) t1).restore t2
        else commitTask (v.soft_delete t1) t1)
      = if v.id = v.id then { v with updated_at := t2 } else v
    rw [if_pos (⟨rfl, rfl⟩ : (commitTask (v.soft_delete t1) t1).id = v.id
        ∧ (commitTask (v.soft_delete t1) t1).deleted_at.isSome = true),
      if_pos rfl]
    cases v with
    | mk id ti de sst pr uid ca ua da =>
      have hda' : da = none := hda
      subst hda'
      rfl
  · rw [if_neg (fun hc => hvid hc.1)]
    show (if v.id = u.id ∧ v.deleted_at.isSome then commitTask v.restore t2 else v)
      = if v.id = u.id then { v with updated_at := t2 } else v
    rw [if_neg (fun hc => hvid hc.1), if_neg hvid]

theorem restore_item_task_eq (st' : Store) (iid actor : Nat) (em : String) (t2 : Nat)
    (t₁ : TaskRec)
    (hf : st'.tasks.find? (fun v => v.id == iid && v.deleted_at.isSome) = some t₁) :
    restore_item st' "task" iid actor em t2
      = (true,
         { users := st'.users,
           tasks := st'.tasks.map (fun v =>
             if v.id = iid ∧ v.deleted_at.isSome then commitTask v.restore t2 else v),
           audit := st'.audit ++
             [{ action := "update", table_name := "tasks",
                record_id := some (toString t₁.id), user_id := some actor,
                user_email := some em, old_values := none, new_values := none,
                description := some ("Restored task from trash: " ++ t₁.title) }] }) := by
  unfold restore_item
  rw [if_neg (by decide : ¬ ("task" : String) = "user"), if_pos rfl]
  simp only [hf]
  rfl

/-- Counterexample for C6: soft-deleting the live user 1 (tombstone time 1)
and then restoring it (time 2) yields a stored record that differs from the
pre-delete state: the `updated_at` column has been advanced by the
`TimestampMixin` hook fired by the two UPDATE commits, so the stored fields
are not indistinguishable from the pre-delete state. -/
theorem c6_roundtrip_counterexample :
    (restore_item (softDeleteUserRow liveUserStore 1 1) "user" 1 9 "admin@example.com" 2).1
        = true
    ∧ (restore_item (softDeleteUserRow liveUserStore 1 1) "user" 1 9
        "admin@example.com" 2).2.users
        = [{ sampleUser with updated_at := 2 }]
    ∧ sampleUser.updated_at = 0
    ∧ (restore_item (softDeleteUserRow liveUserStore 1 1) "user" 1 9
        "admin@example.com" 2).2.users ≠ liveUserStore.users :=
  ⟨by decide, by decide, by decide, by decide⟩

/-- Claim C6 (amended): for every live record of a governed type, soft delete
followed by restore brings back every stored field except `updated_at`
(which the timestamp hook advances to the restore commit time); the
tombstone is cleared, so the record is again visible to ordinary non-trash
queries, and the audit trail has grown by one entry. -/
theorem c6_roundtrip_amended :
    (∀ (st : Store) (u : UserRec) (t1 t2 actor : Nat) (em : String),
        (st.users.map (fun v => v.id)).Nodup → u ∈ st.users → u.deleted_at = none →
        (restore_item (softDeleteUserRow st u.id t1) "user" u.id actor em t2).1 = true
        ∧ (restore_item (softDeleteUserRow st u.id t1) "user" u.id actor em t2).2.users
            = st.users.map (fun v => if v.id = u.id then { v with updated_at := t2 } else v)
        ∧ { u with updated_at := t2 }
            ∈ (restore_item (softDeleteUserRow st u.id t1) "user" u.id actor em t2).2.users
        ∧ { u with updated_at := t2 }
            ∈ ((restore_item (softDeleteUserRow st u.id t1) "user" u.id actor em
                t2).2.users.filter (fun v => v.deleted_at.isNone))
        ∧ (restore_item (softDeleteUserRow st u.id t1) "user" u.id actor em t2).2.tasks
            = st.tasks
        ∧ (restore_item (softDeleteUserRow st u.id t1) "user" u.id actor em
            t2).2.audit.length = st.audit.length + 1)
    ∧ (∀ (st : Store) (t : TaskRec) (t1 t2 actor : Nat) (em : String),
        (st.tasks.map (fun v => v.id)).Nodup → t ∈ st.tasks → t.deleted_at = none →
        (restore_item (softDeleteTaskRow st t.id t1) "task" t.id actor em t2).1 = true
        ∧ (restore_item (softDeleteTaskRow st t.id t1) "task" t.id actor em t2).2.tasks
            = st.tasks.map (fun v => if v.id = t.id then { v with updated_at := t2 } else v)
        ∧ { t with updated_at := t2 }
            ∈ (restore_item (softDeleteTaskRow st t.id t1) "task" t.id actor em t2).2.tasks
        ∧ { t with updated_at := t2 }
            ∈ ((restore_item (softDeleteTaskRow st t.id t1) "task" t.id actor em
                t2).2.tasks.filter (fun v => v.deleted_at.isNone))
        ∧ (restore_item (softDeleteTaskRow st t.id t1) "task" t.id actor em t2).2.users
            = st.users
        ∧ (restore_item (softDeleteTaskRow st t.id t1) "task" t.id actor em
            t2).2.audit.length = st.audit.length + 1) := by
  constructor
  · intro st u t1 t2 actor em hnd hu hdel
    have hfind := sd_find_user t1 st.users hnd u hu hdel
    have hmap := roundtrip_map_user t1 t2 st.users hnd u hu hdel
    have heq := restore_item_user_eq (softDeleteUserRow st u.id t1) u.id actor em t2
      { u with deleted_at := some t1, updated_at := t1 } hfind
    have husers : (softDeleteUserRow st u.id t1).users
        = st.users.map (fun v => if v.id = u.id ∧ v.deleted_at.isNone
            then commitUser (v.soft_delete t1) t1 else v) := rfl
    have haudit : (softDeleteUserRow st u.id t1).audit = st.audit := rfl
    rw [heq]
    have hmem : { u with updated_at := t2 }
        ∈ (softDeleteUserRow st u.id t1).users.map
          (fun v => if v.id = u.id ∧ v.deleted_at.isSome
            then commitUser v.restore t2 else v) := by
      rw [husers, hmap]
      exact List.mem_map.mpr ⟨u, hu, by rw [if_pos rfl]⟩
    refine ⟨rfl, ?_, hmem, ?_, rfl, ?_⟩
    · show (softDeleteUserRow st u.id t1).users.map
          (fun v => if v.id = u.id ∧ v.deleted_at.isSome
            then commitUser v.restore t2 else v)
        = st.users.map (fun v => if v.id = u.id then { v with updated_at := t2 } else v)
      rw [husers, hmap]
    · refine List.mem_filter.mpr ⟨hmem, ?_⟩
      show u.deleted_at.isNone = true
      rw [hdel]
      rfl
    · show ((softDeleteUserRow st u.id t1).audit ++ [_]).length = st.audit.length + 1
      rw [haudit, List.length_append]
      rfl
  · intro st t t1 t2 actor em hnd ht hdel
    have hfind := sd_find_task t1 st.tasks hnd t ht hdel
    have hmap := roundtrip_map_task t1 t2 st.tasks hnd t ht hdel
    have heq := restore_item_task_eq (softDeleteTaskRow st t.id t1) t.id actor em t2
      { t with deleted_at := some t1, updated_at := t1 } hfind
    have htasks : (softDeleteTaskRow st t.id t1).tasks
        = st.tasks.map (fun v => if v.id = t.id ∧ v.deleted_at.isNone
            then commitTask (v.soft_delete t1) t1 else v) := rfl
    have haudit : (softDeleteTaskRow st t.id t1).audit = st.audit := rfl
    rw [heq]
    have hmem : { t with updated_at := t2 }
        ∈ (softDeleteTaskRow st t.id t1).tasks.map
          (fun v => if v.id = t.id ∧ v.deleted_at.isSome
            then commitTask v.restore t2 else v) := by
      rw [htasks, hmap]
      exact List.mem_map.mpr ⟨t, ht, by rw [if_pos rfl]⟩
    refine ⟨rfl, ?_, hmem, ?_, rfl, ?_⟩
    · show (softDeleteTaskRow st t.id t1).tasks.map
          (fun v => if v.id = t.id ∧ v.deleted_at.isSome
            then commitTask v.restore t2 else v)
        = st.tasks.map (fun v => if v.id = t.id then { v with updated_at := t2 } else v)
      rw [htasks, hmap]
    · refine List.mem_filter.mpr ⟨hmem, ?_⟩
      show t.deleted_at.isNone = true
      rw [hdel]
      rfl
    · show ((softDeleteTaskRow st t.id t1).audit ++ [_]).length = st.audit.length + 1
      rw [haudit, List.length_append]
      rfl

/-- Witness for C6 (amended) at concrete stores: the user round trip on
`liveUserStore` and the task round trip on `liveTaskStore`. -/
theorem c6_witness :
    (restore_item (softDeleteUserRow liveUserStore 1 1) "user" 1 9 "admin@example.com" 2).1
        = true
    ∧ (restore_item (softDeleteUserRow liveUserStore 1 1) "user" 1 9
        "admin@example.com" 2).2.audit.length = liveUserStore.audit.length + 1
    ∧ (restore_item (softDeleteTaskRow liveTaskStore 7 1) "task" 7 9
        "admin@example.com" 2).1 = true := by
  have hu := (c6_roundtrip_amended.1 liveUserStore sampleUser 1 2 9 "admin@example.com"
    (by decide) (by decide) (by decide))
  have ht := (c6_roundtrip_amended.2 liveTaskStore
    { id := 7, title := "write spec", description := none, status := "todo",
      priority := "low", user_id := 1, created_at := 0, updated_at := 0,
      deleted_at := none } 1 2 9 "admin@example.com" (by decide) (by decide) (by decide))
  exact ⟨hu.1, hu.2.2.2.2.2, ht.1⟩

end App
